import Mathlib

/-!
Node addressing (pkg/datapath/linux/node_addressing.go)

A shallow embedding of the Linux node-addressing model: the subnet enumerator
(`listSubnetAddresses`, `incIP`), the live address lister (`listLocalAddresses`),
the two address-family views and the facade built by `NewNodeAddressing`.

Go byte slices (`net.IP`, `net.IPMask`) are lists of natural numbers, a byte being a
number below 256; byte arithmetic is written with an explicit `% 256`.  The nil slice
is the empty list.  The functions of Go's `net` package that the file calls (`To4`,
`Mask`, `Contains`, `Equal`, `IsLoopback`, `CIDRMask`) are transcribed from the
standard library.  Loops that need not terminate carry a fuel argument and return
`none` when the fuel runs out.
-/

namespace NodeAddressing

/-! ## Go `net` package -/

/-- Go `net.IP`: a slice of bytes. -/
abbrev IP := List Nat

/-- Go `net.IPMask`: a slice of bytes. -/
abbrev IPMask := List Nat

/-- Go `net.IPNet`: an address and a mask. -/
structure IPNet where
  IP : IP
  Mask : IPMask
deriving DecidableEq, Repr

/-- Every element is a byte. -/
def isBytes (l : List Nat) : Prop := ∀ b ∈ l, b < 256

instance (l : List Nat) : Decidable (isBytes l) := by
  unfold isBytes; infer_instance

def IPv4len : Nat := 4

def IPv6len : Nat := 16

def v4InV6Prefix : List Nat := [0, 0, 0, 0, 0, 0, 0, 0, 0, 0, 0xff, 0xff]

/-- Go `net.IPv4(a, b, c, d)`: the 16-byte form of an IPv4 address. -/
def IPv4 (a b c d : Nat) : IP := v4InV6Prefix ++ [a, b, c, d]

/-- Go `net.IPv4zero`. -/
def IPv4zero : IP := IPv4 0 0 0 0

/-- Go `net.IPv6zero`. -/
def IPv6zero : IP := [0, 0, 0, 0, 0, 0, 0, 0, 0, 0, 0, 0, 0, 0, 0, 0]

/-- Go `net.IPv6loopback`. -/
def IPv6loopback : IP := [0, 0, 0, 0, 0, 0, 0, 0, 0, 0, 0, 0, 0, 0, 0, 1]

def isZeros (p : List Nat) : Bool := p.all fun b => b == 0

def allFF (b : List Nat) : Bool := b.all fun c => c == 0xff

/-- Go `IP.To4`: the 4-byte form of an IPv4 address, `none` for the nil result. -/
def IP.To4 (ip : IP) : Option IP :=
  if ip.length = IPv4len then some ip
  else if ip.length = IPv6len ∧ isZeros (ip.take 10) = true ∧ ip.getD 10 0 = 0xff
      ∧ ip.getD 11 0 = 0xff then some (ip.drop 12)
  else none

/-- Go `IP.Equal`. -/
def IP.Equal (ip x : IP) : Bool :=
  if ip.length = x.length then ip == x
  else if ip.length = IPv4len ∧ x.length = IPv6len then
    x.take 12 == v4InV6Prefix && ip == x.drop 12
  else if ip.length = IPv6len ∧ x.length = IPv4len then
    ip.take 12 == v4InV6Prefix && ip.drop 12 == x
  else false

/-- Go `IP.IsLoopback`. -/
def IP.IsLoopback (ip : IP) : Bool :=
  match IP.To4 ip with
  | some ip4 => ip4.getD 0 0 == 127
  | none => IP.Equal ip IPv6loopback

/-- Go `IP.Mask`; the nil result (length mismatch) is the empty list. -/
def IP.Mask (ip : IP) (mask : IPMask) : IP :=
  let mask := if mask.length = IPv6len ∧ ip.length = IPv4len ∧ allFF (mask.take 12) = true
    then mask.drop 12 else mask
  let ip := if mask.length = IPv4len ∧ ip.length = IPv6len ∧ ip.take 12 = v4InV6Prefix
    then ip.drop 12 else ip
  if ip.length ≠ mask.length then []
  else (List.range ip.length).map fun i => ip.getD i 0 &&& mask.getD i 0

/-- The mask switch of Go `networkNumberAndMask`, after the address has been chosen. -/
def networkNumberAndMask.sw (ip : IP) (m : IPMask) : IP × IPMask :=
  if m.length = IPv4len then
    if ip.length ≠ IPv4len then ([], []) else (ip, m)
  else if m.length = IPv6len then
    if ip.length = IPv4len then (ip, m.drop 12) else (ip, m)
  else ([], [])

/-- Go `networkNumberAndMask`. -/
def networkNumberAndMask (n : IPNet) : IP × IPMask :=
  match IP.To4 n.IP with
  | some ip => networkNumberAndMask.sw ip n.Mask
  | none =>
    if n.IP.length ≠ IPv6len then ([], [])
    else networkNumberAndMask.sw n.IP n.Mask

/-- Go `IPNet.Contains`. -/
def IPNet.Contains (n : IPNet) (ip : NodeAddressing.IP) : Bool :=
  let nn := (networkNumberAndMask n).1
  let m := (networkNumberAndMask n).2
  let ip := match IP.To4 ip with
    | some x => x
    | none => ip
  let l := ip.length
  if l ≠ nn.length then false
  else (List.range l).all fun i => nn.getD i 0 &&& m.getD i 0 == ip.getD i 0 &&& m.getD i 0

/-- The byte-filling loop of Go `CIDRMask`: `l` bytes left to fill, `n` ones left. -/
def CIDRMask.fill : Nat → Nat → List Nat
  | 0, _ => []
  | l + 1, n =>
    if n ≥ 8 then 0xff :: CIDRMask.fill l (n - 8)
    else (0xff - (0xff >>> n)) :: CIDRMask.fill l 0

/-- Go `net.CIDRMask(ones, bits)`. -/
def CIDRMask (ones bits : Nat) : IPMask :=
  if bits ≠ 8 * IPv4len ∧ bits ≠ 8 * IPv6len then []
  else if ones > bits then []
  else CIDRMask.fill (bits / 8) ones

/-! ## Collaborators: netlink, node, defaults, ip -/

/-- Go `error` values returned by the host queries. -/
abbrev Error := String

/-- A netlink link handle. -/
abbrev Link := Nat

/-- The part of `netlink.Addr` read by this file: the address and its scope. -/
structure Addr where
  IP : IP
  Scope : Int
deriving DecidableEq, Repr

/-- Linux `RT_SCOPE_LINK` (`netlink.SCOPE_LINK`). -/
def SCOPE_LINK : Int := 253

/-- Linux `AF_INET` (`netlink.FAMILY_V4`). -/
def FAMILY_V4 : Nat := 2

/-- Linux `AF_INET6` (`netlink.FAMILY_V6`). -/
def FAMILY_V6 : Nat := 10

/-- The state read through the `node`, `defaults` and `netlink` packages: the values
the getters return and the results of the host queries. -/
structure Env where
  /-- Result of `node.GetExcludedIPs()`. -/
  GetExcludedIPs : List IP
  /-- Result of `node.GetNodePortIPv4Addrs()`. -/
  GetNodePortIPv4Addrs : List IP
  /-- Result of `node.GetNodePortIPv6Addrs()`. -/
  GetNodePortIPv6Addrs : List IP
  /-- The constant `defaults.HostDevice`. -/
  HostDevice : String
  /-- Result of `netlink.AddrList(link, family)`; `none` is the nil link. -/
  AddrList : Option Link → Nat → Except Error (List Addr)
  /-- Result of `netlink.LinkByName(name)`: the link (or nil) and the error (or nil). -/
  LinkByName : String → Option Link × Option Error

/-- Modelled from the spec: `ip.IsExcluded` of `pkg/ip` is not among the sources; section
4.1 has it return true iff the candidate is present in the excluded set under exact
byte equality. -/
def IsExcluded (excludeList : List IP) (ip : IP) : Bool :=
  excludeList.any fun e => e == ip

/-! ## node_addressing.go -/

/-- The first loop body of `listLocalAddresses`. -/
def listLocalAddresses.keep (ipsToExclude : List IP) (addresses : List IP) (addr : Addr) :
    List IP :=
  if addr.Scope = SCOPE_LINK then addresses
  else if IsExcluded ipsToExclude addr.IP then addresses
  else if addr.IP.IsLoopback then addresses
  else addresses ++ [addr.IP]

/-- The second loop body of `listLocalAddresses`. -/
def listLocalAddresses.keepHost (addresses : List IP) (addr : Addr) : List IP :=
  if addr.Scope = SCOPE_LINK then addresses ++ [addr.IP] else addresses

/-- Go `listLocalAddresses(family)`. -/
def listLocalAddresses (env : Env) (family : Nat) : Except Error (List IP) :=
  let ipsToExclude := env.GetExcludedIPs
  match env.AddrList none family with
  | .error err => .error err
  | .ok addrs =>
    let addresses := addrs.foldl (listLocalAddresses.keep ipsToExclude) []
    match env.LinkByName env.HostDevice with
    | (some hostDevice, none) =>
      match env.AddrList (some hostDevice) family with
      | .error err => .error err
      | .ok addrs => .ok (addrs.foldl listLocalAddresses.keepHost addresses)
    | _ => .ok addresses

/-- The loop of Go `incIP`: `j + 1` is the number of bytes not yet visited, so the byte
visited is the one at index `j`. -/
def incIP.loop (ipn : IP) : Nat → IP
  | 0 => ipn
  | j + 1 =>
    let ipn := ipn.set j ((ipn.getD j 0 + 1) % 256)
    if ipn.getD j 0 > 0 then ipn else incIP.loop ipn j

/-- Go `incIP(ip)`. -/
def incIP (ip : IP) : IP :=
  incIP.loop ip ip.length

/-- The inner loop of `listSubnetAddresses` for one block: `none` when the fuel runs out
before the loop condition fails. -/
def listSubnetAddresses.inner (nt : IPNet) : Nat → IP → List IP → Option (List IP)
  | 0, _, _ => none
  | fuel + 1, ip, ips =>
    if nt.Contains ip then listSubnetAddresses.inner nt fuel (incIP ip) (ips ++ [ip])
    else some ips

/-- The outer loop of `listSubnetAddresses`. -/
def listSubnetAddresses.outer (fuel : Nat) : List IPNet → List IP → Option (List IP)
  | [], ips => some ips
  | nt :: nets, ips =>
    match listSubnetAddresses.inner nt fuel (nt.IP.Mask nt.Mask) ips with
    | none => none
    | some ips => listSubnetAddresses.outer fuel nets ips

/-- Go `listSubnetAddresses(nets)`; each block's loop may take `fuel` iterations. -/
def listSubnetAddresses (fuel : Nat) (nets : List IPNet) : Option (List IP) :=
  listSubnetAddresses.outer fuel nets []

structure addressFamilyIPv4 where
  subnetOverride : List IPNet
deriving DecidableEq, Repr

structure addressFamilyIPv6 where
  subnetOverride : List IPNet
deriving DecidableEq, Repr

/-- Go `(*addressFamilyIPv4).LocalAddresses`; `none` when the enumeration does not
finish within the fuel. -/
def addressFamilyIPv4.LocalAddresses (a : addressFamilyIPv4) (env : Env) (fuel : Nat) :
    Option (Except Error (List IP)) :=
  if a.subnetOverride.length > 0 then
    (listSubnetAddresses fuel a.subnetOverride).map Except.ok
  else some (listLocalAddresses env FAMILY_V4)

/-- Go `(*addressFamilyIPv4).LoadBalancerNodeAddresses`. -/
def addressFamilyIPv4.LoadBalancerNodeAddresses (_a : addressFamilyIPv4) (env : Env) :
    List IP :=
  let addrs := env.GetNodePortIPv4Addrs
  let addrs := addrs ++ [IPv4zero]
  addrs

/-- Go `(*addressFamilyIPv6).LocalAddresses`. -/
def addressFamilyIPv6.LocalAddresses (a : addressFamilyIPv6) (env : Env) (fuel : Nat) :
    Option (Except Error (List IP)) :=
  if a.subnetOverride.length > 0 then
    (listSubnetAddresses fuel a.subnetOverride).map Except.ok
  else some (listLocalAddresses env FAMILY_V6)

/-- Go `(*addressFamilyIPv6).LoadBalancerNodeAddresses`. -/
def addressFamilyIPv6.LoadBalancerNodeAddresses (_a : addressFamilyIPv6) (env : Env) :
    List IP :=
  let addrs := env.GetNodePortIPv6Addrs
  let addrs := addrs ++ [IPv6zero]
  addrs

structure linuxNodeAddressing where
  ipv6 : addressFamilyIPv6
  ipv4 : addressFamilyIPv4
deriving DecidableEq, Repr

/-- The loop body of `NewNodeAddressing` on the pair `(ipv4Nets, ipv6Nets)`. -/
def NewNodeAddressing.split (acc : List IPNet × List IPNet) (n : IPNet) :
    List IPNet × List IPNet :=
  if (IP.To4 n.IP).isSome then (acc.1 ++ [n], acc.2) else (acc.1, acc.2 ++ [n])

/-- Go `NewNodeAddressing(subnetOverrides)`. -/
def NewNodeAddressing (subnetOverrides : List IPNet) : linuxNodeAddressing :=
  let nets := subnetOverrides.foldl NewNodeAddressing.split ([], [])
  { ipv6 := { subnetOverride := nets.2 }, ipv4 := { subnetOverride := nets.1 } }

/-- Go `(*linuxNodeAddressing).IPv6`. -/
def linuxNodeAddressing.IPv6 (n : linuxNodeAddressing) : addressFamilyIPv6 := n.ipv6

/-- Go `(*linuxNodeAddressing).IPv4`. -/
def linuxNodeAddressing.IPv4 (n : linuxNodeAddressing) : addressFamilyIPv4 := n.ipv4

/-! ## Specification vocabulary -/

/-- The value of a byte sequence read as a big-endian unsigned integer. -/
def beValue : List Nat → Nat
  | [] => 0
  | b :: bs => b * 256 ^ bs.length + beValue bs

/-- The block with address `ip` and prefix length `ones`: its mask is
`CIDRMask ones bits`, `bits` being the width of the address. -/
def cidrBlock (ip : IP) (ones : Nat) : IPNet :=
  { IP := ip, Mask := CIDRMask ones (8 * ip.length) }

/-- The broadcast address of a block: the address with every host bit (a bit the mask
clears) set to one. -/
def broadcastAddress (ip : IP) (mask : IPMask) : IP :=
  List.zipWith (fun a m => a ||| (0xff - m)) ip mask

/-- A 16-byte block with a prefix shorter than 96 bits does not overlap the IPv4-mapped
range `::ffff:0:0/96`: its network address differs from that of `::ffff:0.0.0.0` under
the same mask. -/
def avoidsV4Mapped (ip : IP) (ones : Nat) : Prop :=
  ip.length = 16 → ones < 96 →
    IP.Mask ip (CIDRMask ones 128) ≠ IP.Mask IPv4zero (CIDRMask ones 128)

instance (ip : IP) (ones : Nat) : Decidable (avoidsV4Mapped ip ones) := by
  unfold avoidsV4Mapped; infer_instance

/-- A host on which every address query reports the single address `a` with link-local
scope, the host interface resolves, and the exclusion set is `E`. -/
def linkScopeHost (E : List IP) (a : IP) : Env :=
  { GetExcludedIPs := E
    GetNodePortIPv4Addrs := []
    GetNodePortIPv6Addrs := []
    HostDevice := "cilium_host"
    AddrList := fun _ _ => Except.ok [{ IP := a, Scope := SCOPE_LINK }]
    LinkByName := fun _ => (some 1, none) }

/-- A host without the host interface on which the all-interfaces query reports the
addresses `as` with global scope (0), and the exclusion set is `E`. -/
def globalScopeHost (E : List IP) (as : List IP) : Env :=
  { GetExcludedIPs := E
    GetNodePortIPv4Addrs := []
    GetNodePortIPv6Addrs := []
    HostDevice := "cilium_host"
    AddrList := fun _ _ => Except.ok (as.map fun a => { IP := a, Scope := 0 })
    LinkByName := fun _ => (none, some "Link not found") }

/-- An override list mixing the families: `10.0.0.0/30`, `fd00::/127` and the 16-byte
form of `10.0.1.0` with a 127-bit prefix. -/
def mixedOverrides : List IPNet :=
  [cidrBlock [10, 0, 0, 0] 30,
    cidrBlock [0xfd, 0, 0, 0, 0, 0, 0, 0, 0, 0, 0, 0, 0, 0, 0, 0] 127,
    cidrBlock (IPv4 10 0 1 0) 127]

/-- The address of the given width whose bytes are all `0xFF`. -/
def allOnes (n : Nat) : IP := List.replicate n 0xff

/-- A host on which resolving the host interface fails with the error `err`, and the
all-interfaces query reports the addresses `as` with global scope (0). -/
def linkErrorHost (err : Error) (as : List IP) : Env :=
  { GetExcludedIPs := []
    GetNodePortIPv4Addrs := []
    GetNodePortIPv6Addrs := []
    HostDevice := "cilium_host"
    AddrList := fun _ _ => Except.ok (as.map fun a => { IP := a, Scope := 0 })
    LinkByName := fun _ => (none, some err) }

/-- The addresses the first loop of `listLocalAddresses` keeps, in query order: those
that are not link-local scope, not excluded and not loopback. -/
def keptAddresses (E : List IP) (addrs : List Addr) : List IP :=
  (addrs.filter fun a =>
    decide (a.Scope ≠ SCOPE_LINK) && !IsExcluded E a.IP && !a.IP.IsLoopback).map fun a => a.IP

/-- The addresses the second loop of `listLocalAddresses` keeps, in query order: those
whose scope is link-local. -/
def linkLocalAddresses (addrs : List Addr) : List IP :=
  (addrs.filter fun a => decide (a.Scope = SCOPE_LINK)).map fun a => a.IP

/-- An error of the host-interface lookup other than "not found". -/
def notPermitted : Error := "operation not permitted"

/-! ## The node identity record -/

/-- The per-family part of the node identity record: router address, primary external
address and allocation CIDR (a pointer, `none` for nil). -/
structure NodeIdentityFamily where
  Router : IP
  PrimaryExternal : IP
  AllocationCIDR : Option IPNet
deriving DecidableEq, Repr

/-- The node identity record read through the `node` package. -/
structure NodeIdentity where
  v4 : NodeIdentityFamily
  v6 : NodeIdentityFamily
deriving DecidableEq, Repr

/-- Modelled from the spec: `node.GetInternalIPv4` of `pkg/node` is not among the
sources; sections 3 and 4.4 have it return the v4 router address of the node identity
record. -/
def node.GetInternalIPv4 (n : NodeIdentity) : IP := n.v4.Router

/-- Modelled from the spec: `node.GetExternalIPv4` of `pkg/node` is not among the
sources; sections 3 and 4.4 have it return the v4 primary external address of the node
identity record. -/
def node.GetExternalIPv4 (n : NodeIdentity) : IP := n.v4.PrimaryExternal

/-- Modelled from the spec: `node.GetIPv4AllocRange` of `pkg/node` is not among the
sources; sections 3 and 4.4 have it return the v4 allocation CIDR of the node identity
record. -/
def node.GetIPv4AllocRange (n : NodeIdentity) : Option IPNet := n.v4.AllocationCIDR

/-- Modelled from the spec: `node.GetIPv6Router` of `pkg/node` is not among the sources;
sections 3 and 4.4 have it return the v6 router address of the node identity record. -/
def node.GetIPv6Router (n : NodeIdentity) : IP := n.v6.Router

/-- Modelled from the spec: `node.GetIPv6` of `pkg/node` is not among the sources;
sections 3 and 4.4 have it return the v6 primary external address of the node identity
record. -/
def node.GetIPv6 (n : NodeIdentity) : IP := n.v6.PrimaryExternal

/-- Modelled from the spec: `node.GetIPv6AllocRange` of `pkg/node` is not among the
sources; sections 3 and 4.4 have it return the v6 allocation CIDR of the node identity
record. -/
def node.GetIPv6AllocRange (n : NodeIdentity) : Option IPNet := n.v6.AllocationCIDR

/-- Go `(*addressFamilyIPv4).Router`. -/
def addressFamilyIPv4.Router (_a : addressFamilyIPv4) (n : NodeIdentity) : IP :=
  node.GetInternalIPv4 n

/-- Go `(*addressFamilyIPv4).PrimaryExternal`. -/
def addressFamilyIPv4.PrimaryExternal (_a : addressFamilyIPv4) (n : NodeIdentity) : IP :=
  node.GetExternalIPv4 n

/-- Go `(*addressFamilyIPv4).AllocationCIDR`. -/
def addressFamilyIPv4.AllocationCIDR (_a : addressFamilyIPv4) (n : NodeIdentity) :
    Option IPNet :=
  node.GetIPv4AllocRange n

/-- Go `(*addressFamilyIPv6).Router`. -/
def addressFamilyIPv6.Router (_a : addressFamilyIPv6) (n : NodeIdentity) : IP :=
  node.GetIPv6Router n

/-- Go `(*addressFamilyIPv6).PrimaryExternal`. -/
def addressFamilyIPv6.PrimaryExternal (_a : addressFamilyIPv6) (n : NodeIdentity) : IP :=
  node.GetIPv6 n

/-- Go `(*addressFamilyIPv6).AllocationCIDR`. -/
def addressFamilyIPv6.AllocationCIDR (_a : addressFamilyIPv6) (n : NodeIdentity) :
    Option IPNet :=
  node.GetIPv6AllocRange n

/-! ## Byte sequences as big-endian integers -/

theorem beValue_append (a b : List Nat) :
    beValue (a ++ b) = beValue a * 256 ^ b.length + beValue b := by
  induction a with
  | nil => simp [beValue]
  | cons x xs ih =>
    have hl : (xs ++ b).length = xs.length + b.length := List.length_append xs b
    show x * 256 ^ (xs ++ b).length + beValue (xs ++ b) = _
    rw [ih, hl, pow_add]
    simp only [beValue]
    ring

theorem beValue_lt (l : List Nat) (h : isBytes l) : beValue l < 256 ^ l.length := by
  induction l with
  | nil => simp [beValue]
  | cons x xs ih =>
    have hx : x < 256 := h x (List.mem_cons_self _ _)
    have hxs := ih (fun b hb => h b (List.mem_cons_of_mem _ hb))
    simp only [beValue, List.length_cons, pow_succ]
    have : x * 256 ^ xs.length ≤ 255 * 256 ^ xs.length := Nat.mul_le_mul_right _ (by omega)
    nlinarith

theorem isBytes_append {a b : List Nat} : isBytes (a ++ b) ↔ isBytes a ∧ isBytes b := by
  simp only [isBytes, List.mem_append]
  constructor
  · intro h; exact ⟨fun x hx => h x (Or.inl hx), fun x hx => h x (Or.inr hx)⟩
  · rintro ⟨h1, h2⟩ x (hx | hx)
    · exact h1 x hx
    · exact h2 x hx

/-! ## `incIP` -/

theorem incIP_loop_step (pre : List Nat) (b : Nat) (suf : List Nat) :
    incIP.loop (pre ++ b :: suf) (pre.length + 1) =
      if (b + 1) % 256 > 0 then pre ++ ((b + 1) % 256) :: suf
      else incIP.loop (pre ++ 0 :: suf) pre.length := by
  have hget : (pre ++ b :: suf).getD pre.length 0 = b := by
    rw [List.getD_eq_getElem?_getD, List.getElem?_append_right (le_refl _)]
    simp
  have hset : ∀ c, (pre ++ b :: suf).set pre.length c = pre ++ c :: suf := by
    intro c; simp [List.set_append]
  have hget2 : ∀ c, (pre ++ c :: suf).getD pre.length 0 = c := by
    intro c
    rw [List.getD_eq_getElem?_getD, List.getElem?_append_right (le_refl _)]
    simp
  simp only [incIP.loop, hget, hset, hget2]
  by_cases h : (b + 1) % 256 > 0
  · simp [h]
  · have h0 : (b + 1) % 256 = 0 := by omega
    simp [h0]

theorem incIP_loop_spec (pre : List Nat) (hpre : isBytes pre) :
    ∀ suf : List Nat, ∃ P : List Nat,
      incIP.loop (pre ++ suf) pre.length = P ++ suf ∧ P.length = pre.length ∧ isBytes P ∧
        beValue P = (beValue pre + 1) % 256 ^ pre.length := by
  induction pre using List.reverseRecOn with
  | nil => intro suf; exact ⟨[], by simp [incIP.loop, isBytes, beValue]⟩
  | append_singleton pre b ih =>
    intro suf
    obtain ⟨hp, hb⟩ := isBytes_append.1 hpre
    have hb256 : b < 256 := hb b (List.mem_singleton_self b)
    have hlt := beValue_lt pre hp
    have hstep := incIP_loop_step pre b suf
    simp only [List.append_assoc, List.singleton_append, List.length_append,
      List.length_singleton]
    rw [hstep]
    by_cases h : (b + 1) % 256 > 0
    · have hb1 : (b + 1) % 256 = b + 1 := by omega
      refine ⟨pre ++ [b + 1], ?_, by simp, ?_, ?_⟩
      · simp [hb1]
      · exact isBytes_append.2 ⟨hp, by intro x hx; simp at hx; omega⟩
      · rw [beValue_append, beValue_append]
        simp only [beValue, List.length_singleton, pow_one, pow_zero, mul_one, add_zero,
          List.length_nil]
        rw [Nat.mod_eq_of_lt]
        · ring
        · rw [pow_succ]; omega
    · have hb255 : b = 255 := by omega
      obtain ⟨P, hP, hlen, hbytes, hval⟩ := ih hp (0 :: suf)
      refine ⟨P ++ [0], ?_, by simp [hlen], ?_, ?_⟩
      · simp [h, hP]
      · exact isBytes_append.2 ⟨hbytes, by intro x hx; simp at hx; omega⟩
      · rw [beValue_append, beValue_append]
        simp only [beValue, List.length_singleton, pow_one, pow_zero, mul_one, add_zero,
          List.length_nil]
        rw [hval, hb255, pow_succ]
        have : beValue pre * 256 + 255 + 1 = (beValue pre + 1) * 256 := by ring
        rw [this, Nat.mul_mod_mul_right]

theorem incIP_spec (ip : IP) (h : isBytes ip) :
    (incIP ip).length = ip.length ∧ isBytes (incIP ip) ∧
      beValue (incIP ip) = (beValue ip + 1) % 256 ^ ip.length := by
  obtain ⟨P, hP, hlen, hbytes, hval⟩ := incIP_loop_spec ip h []
  simp only [List.append_nil] at hP
  unfold incIP
  rw [hP]
  exact ⟨hlen, hbytes, hval⟩

theorem incIP_length (ip : IP) : (incIP ip).length = ip.length := by
  have : ∀ (n : Nat) (l : IP), (incIP.loop l n).length = l.length := by
    intro n
    induction n with
    | zero => intro l; rfl
    | succ j ih =>
      intro l
      simp only [incIP.loop]
      split
      · simp
      · rw [ih]; simp
  exact this _ _

theorem incIP_loop_carry (b : Nat) (hb : b < 255) (k : Nat) :
    ∀ pre suf : List Nat,
      incIP.loop (pre ++ b :: List.replicate k 255 ++ suf) (pre.length + 1 + k) =
        pre ++ (b + 1) :: List.replicate k 0 ++ suf := by
  induction k with
  | zero =>
    intro pre suf
    have h := incIP_loop_step pre b suf
    have hb1 : (b + 1) % 256 = b + 1 := by omega
    simpa [hb1] using h
  | succ k ih =>
    intro pre suf
    have h := incIP_loop_step (pre ++ b :: List.replicate k 255) 255 suf
    have hl : (pre ++ b :: List.replicate k 255).length = pre.length + 1 + k := by
      simp; omega
    rw [hl] at h
    have e1 : pre ++ b :: List.replicate (k + 1) 255 ++ suf =
        (pre ++ b :: List.replicate k 255) ++ 255 :: suf := by
      simp [List.replicate_succ']
    have e2 : pre ++ (b + 1) :: List.replicate (k + 1) 0 ++ suf =
        pre ++ (b + 1) :: List.replicate k 0 ++ 0 :: suf := by
      simp [List.replicate_succ']
    rw [e1, e2, ← add_assoc, h]
    have := ih pre (0 :: suf)
    simpa using this

/-- C2: for a byte sequence `ip`, `incIP ip` has the length of `ip` and, read as a
big-endian unsigned integer, is `(value ip + 1) mod 256 ^ length`; a trailing run of
`0xFF` bytes becomes `0x00` and the carry lands in the next more significant byte; in
particular `incIP 192.168.0.255 = 192.168.1.0` and `incIP 10.0.0.255 = 10.0.1.0`. -/
theorem incIP_increments (ip : IP) (h : isBytes ip) :
    (incIP ip).length = ip.length ∧ isBytes (incIP ip) ∧
      beValue (incIP ip) = (beValue ip + 1) % 256 ^ ip.length ∧
      (∀ (pre : List Nat) (b k : Nat), b < 255 → ip = pre ++ b :: List.replicate k 255 →
        incIP ip = pre ++ (b + 1) :: List.replicate k 0) ∧
      incIP [192, 168, 0, 255] = [192, 168, 1, 0] ∧ incIP [10, 0, 0, 255] = [10, 0, 1, 0] := by
  obtain ⟨h1, h2, h3⟩ := incIP_spec ip h
  refine ⟨h1, h2, h3, ?_, by decide, by decide⟩
  intro pre b k hb hip
  subst hip
  have := incIP_loop_carry b hb k pre []
  simp only [List.append_nil] at this
  unfold incIP
  have hl : (pre ++ b :: List.replicate k 255).length = pre.length + 1 + k := by
    simp; omega
  rw [hl, this]

/-- The increment of `10.255.255.255` is `11.0.0.0`. -/
theorem incIP_increments_witness :
    isBytes [10, 255, 255, 255] ∧ incIP [10, 255, 255, 255] = [11, 0, 0, 0] ∧
      beValue (incIP [10, 255, 255, 255]) = (beValue [10, 255, 255, 255] + 1) % 256 ^ 4 :=
  ⟨by decide,
    (incIP_increments [10, 255, 255, 255] (by decide)).2.2.2.1 [] 10 3 (by decide) rfl,
    (incIP_increments [10, 255, 255, 255] (by decide)).2.2.1⟩

/-! ## Masks and containment -/

set_option maxRecDepth 100000 in
theorem byte_and_fill : ∀ a < 256, ∀ k < 8,
    a &&& (0xff - (0xff >>> k)) = a / 2 ^ (8 - k) * 2 ^ (8 - k) := by decide

set_option maxRecDepth 100000 in
theorem byte_or_fill : ∀ a < 256, ∀ k < 8,
    a ||| (0xff - (0xff - (0xff >>> k))) = a / 2 ^ (8 - k) * 2 ^ (8 - k) + 2 ^ (8 - k) - 1 := by
  decide

set_option maxRecDepth 100000 in
theorem byte_and_ff : ∀ a < 256, a &&& 0xff = a := by decide

theorem CIDRMask_fill_length (l n : Nat) : (CIDRMask.fill l n).length = l := by
  induction l generalizing n with
  | zero => rfl
  | succ l ih =>
    unfold CIDRMask.fill
    split <;> simp [ih]

theorem beValue_inj : ∀ (a b : List Nat), a.length = b.length → isBytes a → isBytes b →
    beValue a = beValue b → a = b := by
  intro a
  induction a with
  | nil => intro b hl _ _ _; exact (List.length_eq_zero.1 hl.symm).symm
  | cons x xs ih =>
    intro b hl ha hb hv
    cases b with
    | nil => simp at hl
    | cons y ys =>
      have hl2 : xs.length = ys.length := by simpa using hl
      have hxs : isBytes xs := fun c hc => ha c (List.mem_cons_of_mem _ hc)
      have hys : isBytes ys := fun c hc => hb c (List.mem_cons_of_mem _ hc)
      have h1 := beValue_lt xs hxs
      have h2 := beValue_lt ys hys
      simp only [beValue] at hv
      rw [hl2] at hv h1
      have hpos : 0 < 256 ^ ys.length := by positivity
      have hxy : x = y := by
        have e1 : (x * 256 ^ ys.length + beValue xs) / 256 ^ ys.length = x := by
          rw [Nat.mul_comm, Nat.mul_add_div hpos, Nat.div_eq_of_lt h1]; rfl
        have e2 : (y * 256 ^ ys.length + beValue ys) / 256 ^ ys.length = y := by
          rw [Nat.mul_comm, Nat.mul_add_div hpos, Nat.div_eq_of_lt h2]; rfl
        rw [← e1, ← e2, hv]
      subst hxy
      have : beValue xs = beValue ys := by omega
      rw [ih ys hl2 hxs hys this]

theorem isBytes_cons {x : Nat} {xs : List Nat} : isBytes (x :: xs) ↔ x < 256 ∧ isBytes xs := by
  simp [isBytes]

theorem isBytes_zipWith_and (a m : List Nat) (ha : isBytes a) :
    isBytes (List.zipWith (fun x y => x &&& y) a m) := by
  induction a generalizing m with
  | nil => simp [isBytes]
  | cons x xs ih =>
    cases m with
    | nil => simp [isBytes]
    | cons y ys =>
      obtain ⟨hx, hxs⟩ := isBytes_cons.1 ha
      simp only [List.zipWith_cons_cons]
      exact isBytes_cons.2 ⟨lt_of_le_of_lt Nat.and_le_left hx, ih ys hxs⟩

theorem pow256 (l : Nat) : 256 ^ l = 2 ^ (8 * l) := by
  rw [pow_mul]; norm_num

/-- Arithmetic core of the full-byte case. -/
theorem div_mul_high (x V l h : Nat) (hh : h ≤ 8 * l) :
    (x * 2 ^ (8 * l) + V) / 2 ^ h = x * 2 ^ (8 * l - h) + V / 2 ^ h := by
  have e : 2 ^ (8 * l) = 2 ^ h * 2 ^ (8 * l - h) := by
    rw [← pow_add]; congr 1; omega
  rw [e, show x * (2 ^ h * 2 ^ (8 * l - h)) = 2 ^ h * (x * 2 ^ (8 * l - h)) by ring]
  rw [Nat.mul_add_div (by positivity)]

/-- Arithmetic core of the partial-byte case. -/
theorem div_mul_low (x V l k : Nat) (hV : V < 2 ^ (8 * l)) :
    (x * 2 ^ (8 * l) + V) / 2 ^ (8 * l + k) = x / 2 ^ k := by
  rw [pow_add, ← Nat.div_div_eq_div_mul]
  congr 1
  rw [Nat.mul_comm, Nat.mul_add_div (by positivity), Nat.div_eq_of_lt hV]; rfl

theorem beValue_mask (l : Nat) : ∀ (n : Nat) (a : List Nat), a.length = l → isBytes a →
    n ≤ 8 * l →
    beValue (List.zipWith (fun x y => x &&& y) a (CIDRMask.fill l n)) =
      beValue a / 2 ^ (8 * l - n) * 2 ^ (8 * l - n) := by
  induction l with
  | zero =>
    intro n a hl _ hn
    have : a = [] := List.length_eq_zero.1 hl
    subst this
    simp [CIDRMask.fill, beValue]
  | succ l ih =>
    intro n a hl ha hn
    cases a with
    | nil => simp at hl
    | cons x xs =>
      have hl2 : xs.length = l := by simpa using hl
      obtain ⟨hx, hxs⟩ := isBytes_cons.1 ha
      have hV := beValue_lt xs hxs
      rw [hl2, pow256] at hV
      unfold CIDRMask.fill
      by_cases h8 : n ≥ 8
      · simp only [h8, if_true, List.zipWith_cons_cons, beValue]
        have hzl : (List.zipWith (fun x y => x &&& y) xs (CIDRMask.fill l (n - 8))).length = l := by
          simp [hl2, CIDRMask_fill_length]
        rw [hzl, ih (n - 8) xs hl2 hxs (by omega), byte_and_ff x hx, hl2, pow256]
        have hh : 8 * (l + 1) - n = 8 * l - (n - 8) := by omega
        rw [hh, div_mul_high x (beValue xs) l _ (by omega), add_mul, mul_assoc, ← pow_add]
        congr 3
        omega
      · simp only [h8, if_false, List.zipWith_cons_cons, beValue]
        have hzl : (List.zipWith (fun x y => x &&& y) xs (CIDRMask.fill l 0)).length = l := by
          simp [hl2, CIDRMask_fill_length]
        have h0 := ih 0 xs hl2 hxs (by omega)
        simp only [Nat.sub_zero] at h0
        rw [Nat.div_eq_of_lt hV] at h0
        rw [hzl, h0, byte_and_fill x hx n (by omega), hl2, pow256]
        have hh : 8 * (l + 1) - n = 8 * l + (8 - n) := by omega
        rw [hh, div_mul_low x (beValue xs) l _ hV, pow_add]
        ring

theorem isBytes_broadcast : ∀ (a m : List Nat), isBytes a → isBytes (broadcastAddress a m) := by
  intro a
  induction a with
  | nil => intro m _; simp [broadcastAddress, isBytes]
  | cons x xs ih =>
    intro m ha
    cases m with
    | nil => simp [broadcastAddress, isBytes]
    | cons y ys =>
      obtain ⟨hx, hxs⟩ := isBytes_cons.1 ha
      have := ih ys hxs
      unfold broadcastAddress at this ⊢
      simp only [List.zipWith_cons_cons]
      refine isBytes_cons.2 ⟨?_, this⟩
      exact Nat.or_lt_two_pow (n := 8) hx (by omega)

theorem sub_one_mul_add (q A B : Nat) (hA : 0 < A) (hB : 0 < B) :
    (q * A + A - 1) * B + (B - 1) = q * (B * A) + (B * A - 1) := by
  obtain ⟨A', rfl⟩ : ∃ A', A = A' + 1 := ⟨A - 1, by omega⟩
  obtain ⟨B', rfl⟩ : ∃ B', B = B' + 1 := ⟨B - 1, by omega⟩
  have e1 : q * (A' + 1) + (A' + 1) - 1 = q * (A' + 1) + A' := by omega
  have e2 : (B' + 1) * (A' + 1) - 1 = B' * A' + B' + A' := by
    have : (B' + 1) * (A' + 1) = B' * A' + B' + A' + 1 := by ring
    omega
  rw [e1, e2]
  simp only [Nat.add_sub_cancel]
  ring

theorem beValue_broadcast (l : Nat) : ∀ (n : Nat) (a : List Nat), a.length = l → isBytes a →
    n ≤ 8 * l →
    beValue (broadcastAddress a (CIDRMask.fill l n)) =
      beValue a / 2 ^ (8 * l - n) * 2 ^ (8 * l - n) + (2 ^ (8 * l - n) - 1) := by
  induction l with
  | zero =>
    intro n a hl _ hn
    have : a = [] := List.length_eq_zero.1 hl
    subst this
    simp [CIDRMask.fill, beValue, broadcastAddress]
  | succ l ih =>
    intro n a hl ha hn
    cases a with
    | nil => simp at hl
    | cons x xs =>
      have hl2 : xs.length = l := by simpa using hl
      obtain ⟨hx, hxs⟩ := isBytes_cons.1 ha
      have hV := beValue_lt xs hxs
      rw [hl2, pow256] at hV
      have hzl : ∀ k, (broadcastAddress xs (CIDRMask.fill l k)).length = l := by
        intro k; simp [broadcastAddress, hl2, CIDRMask_fill_length]
      unfold CIDRMask.fill
      by_cases h8 : n ≥ 8
      · simp only [h8, if_true]
        show beValue ((x ||| (0xff - 0xff)) :: broadcastAddress xs (CIDRMask.fill l (n - 8))) = _
        simp only [beValue, Nat.sub_self, Nat.or_zero]
        rw [hzl, ih (n - 8) xs hl2 hxs (by omega), hl2, pow256]
        have hh : 8 * (l + 1) - n = 8 * l - (n - 8) := by omega
        rw [hh, div_mul_high x (beValue xs) l _ (by omega), add_mul, mul_assoc, ← pow_add]
        have : 8 * l - (8 * l - (n - 8)) + (8 * l - (n - 8)) = 8 * l := by omega
        rw [this]
        ring
      · simp only [h8, if_false]
        show beValue ((x ||| (0xff - (0xff - (0xff >>> n)))) ::
          broadcastAddress xs (CIDRMask.fill l 0)) = _
        simp only [beValue]
        have h0 := ih 0 xs hl2 hxs (by omega)
        simp only [Nat.sub_zero] at h0
        rw [Nat.div_eq_of_lt hV, Nat.zero_mul, Nat.zero_add] at h0
        rw [hzl, h0, byte_or_fill x hx n (by omega), hl2, pow256]
        have hh : 8 * (l + 1) - n = 8 * l + (8 - n) := by omega
        rw [hh, div_mul_low x (beValue xs) l _ hV, pow_add]
        exact sub_one_mul_add _ _ _ (by positivity) (by positivity)

theorem rangeMap_and (a m : List Nat) (h : a.length = m.length) :
    (List.range a.length).map (fun i => a.getD i 0 &&& m.getD i 0) =
      List.zipWith (fun x y => x &&& y) a m := by
  apply List.ext_getElem
  · simp [h]
  · intro i h1 h2
    simp only [List.length_map, List.length_range] at h1
    simp [List.getD_eq_getElem?_getD, List.getElem?_eq_getElem h1,
      List.getElem?_eq_getElem (h ▸ h1)]

theorem rangeAll_and (nn ip m : List Nat) (h1 : ip.length = nn.length)
    (h2 : ip.length = m.length) :
    ((List.range ip.length).all fun i =>
        nn.getD i 0 &&& m.getD i 0 == ip.getD i 0 &&& m.getD i 0) =
      decide (List.zipWith (fun x y => x &&& y) nn m = List.zipWith (fun x y => x &&& y) ip m) := by
  rw [← rangeMap_and ip m h2, ← rangeMap_and nn m (h1 ▸ h2), ← h1]
  rw [Bool.eq_iff_iff]
  simp only [List.all_eq_true, beq_iff_eq, decide_eq_true_eq]
  exact (List.map_inj_left).symm

theorem To4_of_length4 (ip : IP) (h : ip.length = 4) : IP.To4 ip = some ip := by
  simp [IP.To4, IPv4len, h]

theorem To4_of_length16 (ip : IP) (h : ip.length = 16) :
    IP.To4 ip = if ip.take 12 = v4InV6Prefix then some (ip.drop 12) else none := by
  match ip, h with
  | [a0, a1, a2, a3, a4, a5, a6, a7, a8, a9, a10, a11, a12, a13, a14, a15], _ =>
    simp only [IP.To4, IPv4len, IPv6len, isZeros, v4InV6Prefix]
    simp [and_assoc]

theorem beValue_take_drop (ip : List Nat) (k : Nat) :
    beValue ip = beValue (ip.take k) * 256 ^ (ip.drop k).length + beValue (ip.drop k) := by
  conv_lhs => rw [← List.take_append_drop k ip]
  exact beValue_append _ _

theorem isBytes_take {ip : List Nat} (h : isBytes ip) (k : Nat) : isBytes (ip.take k) :=
  fun b hb => h b (List.mem_of_mem_take hb)

theorem isBytes_drop {ip : List Nat} (h : isBytes ip) (k : Nat) : isBytes (ip.drop k) :=
  fun b hb => h b (List.mem_of_mem_drop hb)

theorem beValue_high (ip : IP) (h : ip.length = 16) (hb : isBytes ip) :
    beValue ip / 2 ^ 32 = beValue (ip.take 12) := by
  have hd : (ip.drop 12).length = 4 := by simp [h]
  have hlt := beValue_lt (ip.drop 12) (isBytes_drop hb 12)
  rw [hd] at hlt
  rw [beValue_take_drop ip 12, hd]
  have : (256 : Nat) ^ 4 = 2 ^ 32 := by norm_num
  rw [this] at hlt ⊢
  rw [Nat.mul_comm, Nat.mul_add_div (by positivity), Nat.div_eq_of_lt hlt]; rfl

theorem mapped_iff (ip : IP) (h : ip.length = 16) (hb : isBytes ip) :
    ip.take 12 = v4InV6Prefix ↔ beValue ip / 2 ^ 32 = 0xffff := by
  rw [beValue_high ip h hb]
  constructor
  · intro e; rw [e]; decide
  · intro e
    apply beValue_inj _ _ (by simp [h, v4InV6Prefix]) (isBytes_take hb 12) (by decide)
    rw [e]; decide

theorem CIDRMask_eq_fill (ones l : Nat) (hl : l = 4 ∨ l = 16) (h : ones ≤ 8 * l) :
    CIDRMask ones (8 * l) = CIDRMask.fill l ones := by
  unfold CIDRMask
  rcases hl with rfl | rfl
  · simp [IPv4len, IPv6len]; omega
  · simp [IPv4len, IPv6len]; omega

theorem Mask_eq_zipWith (ip : IP) (mask : IPMask) (h : ip.length = mask.length) :
    IP.Mask ip mask = List.zipWith (fun x y => x &&& y) ip mask := by
  unfold IP.Mask
  have h1 : ¬ (mask.length = IPv6len ∧ ip.length = IPv4len ∧ allFF (mask.take 12) = true) := by
    simp only [IPv6len, IPv4len]; omega
  have h2 : ¬ (mask.length = IPv4len ∧ ip.length = IPv6len ∧ ip.take 12 = v4InV6Prefix) := by
    simp only [IPv6len, IPv4len]; omega
  simp only [h1, h2, if_false]
  simp only [h, ne_eq, not_true_eq_false, if_false]
  rw [← h]
  exact rangeMap_and ip mask h

theorem zipWith_mask_eq_iff (l n : Nat) (a b : List Nat) (ha : a.length = l) (hb : b.length = l)
    (hab : isBytes a) (hbb : isBytes b) (hn : n ≤ 8 * l) :
    List.zipWith (fun x y => x &&& y) a (CIDRMask.fill l n) =
        List.zipWith (fun x y => x &&& y) b (CIDRMask.fill l n) ↔
      beValue a / 2 ^ (8 * l - n) = beValue b / 2 ^ (8 * l - n) := by
  constructor
  · intro e
    have := congrArg beValue e
    rw [beValue_mask l n a ha hab hn, beValue_mask l n b hb hbb hn] at this
    exact Nat.eq_of_mul_eq_mul_right (by positivity) this
  · intro e
    apply beValue_inj
    · simp [ha, hb]
    · exact isBytes_zipWith_and _ _ hab
    · exact isBytes_zipWith_and _ _ hbb
    · rw [beValue_mask l n a ha hab hn, beValue_mask l n b hb hbb hn, e]

theorem contains_core (l n : Nat) (nn ip : List Nat) (ha : nn.length = l) (hb : ip.length = l)
    (hab : isBytes nn) (hbb : isBytes ip) (hn : n ≤ 8 * l) :
    ((List.range ip.length).all fun i =>
        nn.getD i 0 &&& (CIDRMask.fill l n).getD i 0 ==
          ip.getD i 0 &&& (CIDRMask.fill l n).getD i 0) =
      decide (beValue ip / 2 ^ (8 * l - n) = beValue nn / 2 ^ (8 * l - n)) := by
  rw [rangeAll_and nn ip _ (by omega) (by simp [hb, CIDRMask_fill_length])]
  rw [Bool.eq_iff_iff]
  simp only [decide_eq_true_eq]
  rw [zipWith_mask_eq_iff l n nn ip ha hb hab hbb hn]
  exact eq_comm

theorem fill_drop (k : Nat) : ∀ (l n : Nat), 8 * k ≤ n →
    (CIDRMask.fill (k + l) n).drop k = CIDRMask.fill l (n - 8 * k) := by
  induction k with
  | zero => intro l n _; simp
  | succ k ih =>
    intro l n h
    have e : k + 1 + l = (k + l) + 1 := by omega
    have h8 : n ≥ 8 := by omega
    have hf : CIDRMask.fill (k + l + 1) n = 0xff :: CIDRMask.fill (k + l) (n - 8) := by
      rw [CIDRMask.fill]; simp [h8]
    rw [e, hf, List.drop_succ_cons, ih l (n - 8) (by omega)]
    congr 1
    omega

theorem div_pow_mono (a b h k : Nat) (hk : h ≤ k) (e : a / 2 ^ h = b / 2 ^ h) :
    a / 2 ^ k = b / 2 ^ k := by
  have : k = h + (k - h) := by omega
  rw [this, pow_add, ← Nat.div_div_eq_div_mul, ← Nat.div_div_eq_div_mul, e]

theorem Contains_block4 (IP0 : IP) (p : Nat) (ip : IP) (h0 : IP0.length = 4)
    (hb : isBytes IP0) (hp : p ≤ 32) (hil : ip.length = 4) (hib : isBytes ip) :
    IPNet.Contains { IP := IP0, Mask := CIDRMask.fill 4 p } ip =
      decide (beValue ip / 2 ^ (32 - p) = beValue IP0 / 2 ^ (32 - p)) := by
  have hnn : networkNumberAndMask { IP := IP0, Mask := CIDRMask.fill 4 p } =
      (IP0, CIDRMask.fill 4 p) := by
    simp [networkNumberAndMask, To4_of_length4 _ h0, networkNumberAndMask.sw,
      CIDRMask_fill_length, IPv4len, h0]
  unfold IPNet.Contains
  rw [hnn, To4_of_length4 ip hil]
  simp only [hil, h0, ne_eq, not_true_eq_false, if_false]
  have := contains_core 4 p IP0 ip h0 hil hb hib (by omega)
  rw [hil] at this
  exact this

theorem Contains_block16 (IP0 : IP) (p : Nat) (ip : IP) (h0 : IP0.length = 16)
    (hb : isBytes IP0) (hp : p ≤ 128) (hil : ip.length = 16) (hib : isBytes ip)
    (hn : IP0.take 12 ≠ v4InV6Prefix)
    (hne : ip.take 12 = v4InV6Prefix →
      beValue ip / 2 ^ (128 - p) ≠ beValue IP0 / 2 ^ (128 - p)) :
    IPNet.Contains { IP := IP0, Mask := CIDRMask.fill 16 p } ip =
      decide (beValue ip / 2 ^ (128 - p) = beValue IP0 / 2 ^ (128 - p)) := by
  have hnn : networkNumberAndMask { IP := IP0, Mask := CIDRMask.fill 16 p } =
      (IP0, CIDRMask.fill 16 p) := by
    simp [networkNumberAndMask, To4_of_length16 _ h0, hn, networkNumberAndMask.sw,
      CIDRMask_fill_length, IPv4len, IPv6len, h0]
  unfold IPNet.Contains
  rw [hnn, To4_of_length16 ip hil]
  by_cases hm : ip.take 12 = v4InV6Prefix
  · simp only [hm, if_true, h0]
    have : (ip.drop 12).length ≠ 16 := by simp [hil]
    simp only [this, ne_eq, not_false_eq_true, if_true]
    exact (decide_eq_false (hne hm)).symm
  · simp only [hm, if_false, hil, h0, ne_eq, not_true_eq_false]
    have := contains_core 16 p IP0 ip h0 hil hb hib (by omega)
    rw [hil] at this
    exact this

theorem beValue_mapped (ip : IP) (h : ip.length = 16) (hm : ip.take 12 = v4InV6Prefix) :
    beValue ip = 0xffff * 2 ^ (8 * 4) + beValue (ip.drop 12) := by
  have hd : (ip.drop 12).length = 4 := by simp [h]
  rw [beValue_take_drop ip 12, hd, hm]
  have : beValue v4InV6Prefix = 0xffff := by decide
  rw [this]
  norm_num

theorem Contains_block16_mapped (IP0 : IP) (p : Nat) (ip : IP) (h0 : IP0.length = 16)
    (hb : isBytes IP0) (hp : p ≤ 128) (hp96 : 96 ≤ p) (hil : ip.length = 16)
    (hib : isBytes ip) (hn : IP0.take 12 = v4InV6Prefix) :
    IPNet.Contains { IP := IP0, Mask := CIDRMask.fill 16 p } ip =
      decide (beValue ip / 2 ^ (128 - p) = beValue IP0 / 2 ^ (128 - p)) := by
  have hfd : (CIDRMask.fill 16 p).drop 12 = CIDRMask.fill 4 (p - 96) :=
    fill_drop 12 4 p (by omega)
  have hnn : networkNumberAndMask { IP := IP0, Mask := CIDRMask.fill 16 p } =
      (IP0.drop 12, CIDRMask.fill 4 (p - 96)) := by
    simp [networkNumberAndMask, To4_of_length16 _ h0, hn, networkNumberAndMask.sw,
      CIDRMask_fill_length, IPv4len, IPv6len, h0, hfd]
  have hd0 : (IP0.drop 12).length = 4 := by simp [h0]
  have hdi : (ip.drop 12).length = 4 := by simp [hil]
  have hv0 := beValue_mapped IP0 h0 hn
  unfold IPNet.Contains
  rw [hnn, To4_of_length16 ip hil]
  by_cases hm : ip.take 12 = v4InV6Prefix
  · simp only [hm, if_true, hd0, hdi, ne_eq, not_true_eq_false, if_false]
    have := contains_core 4 (p - 96) (IP0.drop 12) (ip.drop 12) hd0 hdi
      (isBytes_drop hb 12) (isBytes_drop hib 12) (by omega)
    rw [hdi] at this
    rw [this, hv0, beValue_mapped ip hil hm]
    have hh : 8 * 4 - (p - 96) = 128 - p := by omega
    rw [hh, div_mul_high _ _ 4 (128 - p) (by omega), div_mul_high _ _ 4 (128 - p) (by omega)]
    rw [Bool.eq_iff_iff]
    simp only [decide_eq_true_eq]
    omega
  · simp only [hm, if_false, hil, hd0]
    have hne : ¬ (beValue ip / 2 ^ (128 - p) = beValue IP0 / 2 ^ (128 - p)) := by
      intro e
      have e32 := div_pow_mono _ _ (128 - p) 32 (by omega) e
      rw [(mapped_iff IP0 h0 hb).1 hn] at e32
      exact hm ((mapped_iff ip hil hib).2 e32)
    simp [hne]

theorem avoids_numeric (IP0 : IP) (p : Nat) (h0 : IP0.length = 16) (hb : isBytes IP0)
    (hp : p < 96) (hm : avoidsV4Mapped IP0 p) :
    beValue IP0 / 2 ^ (128 - p) ≠ beValue IPv4zero / 2 ^ (128 - p) := by
  have hne := hm h0 hp
  have hc : CIDRMask p 128 = CIDRMask.fill 16 p := CIDRMask_eq_fill p 16 (Or.inr rfl) (by omega)
  have hz : IPv4zero.length = 16 := by decide
  rw [hc, Mask_eq_zipWith _ _ (by simp [h0, CIDRMask_fill_length]),
    Mask_eq_zipWith _ _ (by simp [hz, CIDRMask_fill_length])] at hne
  intro e
  exact hne ((zipWith_mask_eq_iff 16 p IP0 IPv4zero h0 hz hb (by decide) (by omega)).2 e)

theorem Contains_cidrBlock (IP0 : IP) (p : Nat) (ip : IP)
    (hl : IP0.length = 4 ∨ IP0.length = 16) (hb : isBytes IP0) (hp : p ≤ 8 * IP0.length)
    (hm : avoidsV4Mapped IP0 p) (hil : ip.length = IP0.length) (hib : isBytes ip) :
    (cidrBlock IP0 p).Contains ip =
      decide (beValue ip / 2 ^ (8 * IP0.length - p) = beValue IP0 / 2 ^ (8 * IP0.length - p)) := by
  unfold cidrBlock
  rw [CIDRMask_eq_fill p _ hl hp]
  rcases hl with h0 | h0
  · rw [h0] at hp hil ⊢
    exact Contains_block4 IP0 p ip h0 hb (by omega) hil hib
  · rw [h0] at hp hil ⊢
    have hz32 : beValue IPv4zero / 2 ^ 32 = 0xffff := by decide
    by_cases hn : IP0.take 12 = v4InV6Prefix
    · have hp96 : 96 ≤ p := by
        by_contra hlt
        have hA := avoids_numeric IP0 p h0 hb (by omega) hm
        apply hA
        have e32 : beValue IP0 / 2 ^ 32 = beValue IPv4zero / 2 ^ 32 := by
          rw [(mapped_iff IP0 h0 hb).1 hn, hz32]
        exact div_pow_mono _ _ 32 (128 - p) (by omega) e32
      exact Contains_block16_mapped IP0 p ip h0 hb (by omega) hp96 hil hib hn
    · apply Contains_block16 IP0 p ip h0 hb (by omega) hil hib hn
      intro hmi e
      have hi32 := (mapped_iff ip hil hib).1 hmi
      by_cases hp96 : 96 ≤ p
      · have e32 := div_pow_mono _ _ (128 - p) 32 (by omega) e
        rw [hi32] at e32
        exact hn ((mapped_iff IP0 h0 hb).2 e32.symm)
      · have hA := avoids_numeric IP0 p h0 hb (by omega) hm
        apply hA
        have e32 : beValue ip / 2 ^ 32 = beValue IPv4zero / 2 ^ 32 := by rw [hi32, hz32]
        rw [← e]
        exact div_pow_mono _ _ 32 (128 - p) (by omega) e32

theorem Mask_cidrBlock (IP0 : IP) (p : Nat)
    (hl : IP0.length = 4 ∨ IP0.length = 16) (hb : isBytes IP0) (hp : p ≤ 8 * IP0.length) :
    (IP.Mask IP0 (cidrBlock IP0 p).Mask).length = IP0.length ∧
      isBytes (IP.Mask IP0 (cidrBlock IP0 p).Mask) ∧
      beValue (IP.Mask IP0 (cidrBlock IP0 p).Mask) =
        beValue IP0 / 2 ^ (8 * IP0.length - p) * 2 ^ (8 * IP0.length - p) := by
  unfold cidrBlock
  simp only
  rw [CIDRMask_eq_fill p _ hl hp, Mask_eq_zipWith _ _ (by simp [CIDRMask_fill_length])]
  refine ⟨by simp [CIDRMask_fill_length], isBytes_zipWith_and _ _ hb, ?_⟩
  exact beValue_mask _ p IP0 rfl hb hp

theorem inner_run (nt : IPNet) (n D N : Nat) (hD : 0 < D)
    (hC : ∀ ip : IP, ip.length = n → isBytes ip →
      nt.Contains ip = decide (beValue ip / D = N))
    (hN : (N + 1) * D ≤ 256 ^ n) (hN1 : N ≠ 0 ∨ (N + 1) * D < 256 ^ n) :
    ∀ (k : Nat) (ip : IP) (acc : List IP), ip.length = n → isBytes ip →
      beValue ip + k = (N + 1) * D → 1 ≤ k → k ≤ D →
      ∀ fuel, k + 1 ≤ fuel →
        listSubnetAddresses.inner nt fuel ip acc = some (acc ++ List.iterate incIP ip k) := by
  intro k
  induction k with
  | zero => intro ip acc _ _ _ h1; omega
  | succ k ih =>
    intro ip acc hl hb hv _ hk fuel hf
    obtain ⟨f, rfl⟩ : ∃ f, fuel = f + 1 := ⟨fuel - 1, by omega⟩
    have hND : (N + 1) * D = N * D + D := by ring
    have hin : beValue ip / D = N := by
      apply Nat.div_eq_of_lt_le
      · omega
      · omega
    obtain ⟨hl', hb', hv'⟩ := incIP_spec ip hb
    rw [hl] at hl' hv'
    have hstep : listSubnetAddresses.inner nt (f + 1) ip acc =
        listSubnetAddresses.inner nt f (incIP ip) (acc ++ [ip]) := by
      rw [listSubnetAddresses.inner, hC ip hl hb, hin]
      simp
    rw [hstep]
    by_cases hk0 : k = 0
    · subst hk0
      obtain ⟨g, rfl⟩ : ∃ g, f = g + 1 := ⟨f - 1, by omega⟩
      have hout : beValue (incIP ip) / D ≠ N := by
        rw [hv']
        have e : beValue ip + 1 = (N + 1) * D := by omega
        rw [e]
        rcases Nat.lt_or_ge ((N + 1) * D) (256 ^ n) with hlt | hge
        · rw [Nat.mod_eq_of_lt hlt, Nat.mul_div_cancel _ hD]; omega
        · have e2 : (N + 1) * D = 256 ^ n := by omega
          rw [e2, Nat.mod_self, Nat.zero_div]
          rcases hN1 with h | h
          · exact fun h0 => h h0.symm
          · omega
      rw [listSubnetAddresses.inner, hC _ hl' hb']
      simp [hout, List.iterate]
    · have hv2 : beValue (incIP ip) = beValue ip + 1 := by
        rw [hv']; apply Nat.mod_eq_of_lt; omega
      rw [ih (incIP ip) (acc ++ [ip]) hl' hb' (by omega) (by omega) (by omega) f (by omega)]
      simp [List.iterate]

theorem iterate_incIP_values (n : Nat) : ∀ (k : Nat) (ip : IP), ip.length = n → isBytes ip →
    beValue ip + k ≤ 256 ^ n →
    (List.iterate incIP ip k).map beValue = List.range' (beValue ip) k ∧
      ∀ x ∈ List.iterate incIP ip k, x.length = n ∧ isBytes x := by
  intro k
  induction k with
  | zero => intro ip _ _ _; simp [List.iterate]
  | succ k ih =>
    intro ip hl hb hv
    obtain ⟨hl', hb', hv'⟩ := incIP_spec ip hb
    rw [hl] at hl' hv'
    by_cases hk0 : k = 0
    · subst hk0
      simp [List.iterate, hl, hb]
    · have hv2 : beValue (incIP ip) = beValue ip + 1 := by
        rw [hv']; apply Nat.mod_eq_of_lt; omega
      obtain ⟨h1, h2⟩ := ih (incIP ip) hl' hb' (by omega)
      constructor
      · simp only [List.iterate, List.map_cons, h1, hv2, List.range'_succ]
      · intro x hx
        simp only [List.iterate, List.mem_cons] at hx
        rcases hx with rfl | hx
        · exact ⟨hl, hb⟩
        · exact h2 x hx

theorem cidrBlock_bounds (IP0 : IP) (p : Nat) (hb : isBytes IP0) (hp1 : 1 ≤ p)
    (hp : p ≤ 8 * IP0.length) :
    (beValue IP0 / 2 ^ (8 * IP0.length - p) + 1) * 2 ^ (8 * IP0.length - p) ≤
        256 ^ IP0.length ∧
      (beValue IP0 / 2 ^ (8 * IP0.length - p) ≠ 0 ∨
        (beValue IP0 / 2 ^ (8 * IP0.length - p) + 1) * 2 ^ (8 * IP0.length - p) <
          256 ^ IP0.length) := by
  have hlt := beValue_lt IP0 hb
  have e : 256 ^ IP0.length = 2 ^ p * 2 ^ (8 * IP0.length - p) := by
    rw [pow256, ← pow_add]; congr 1; omega
  rw [e] at hlt ⊢
  have hq : beValue IP0 / 2 ^ (8 * IP0.length - p) < 2 ^ p :=
    Nat.div_lt_of_lt_mul (by rw [Nat.mul_comm]; exact hlt)
  have hD : 0 < 2 ^ (8 * IP0.length - p) := by positivity
  constructor
  · exact Nat.mul_le_mul_right _ hq
  · by_cases h0 : beValue IP0 / 2 ^ (8 * IP0.length - p) = 0
    · right
      rw [h0]
      have : 2 ≤ 2 ^ p := by
        calc 2 = 2 ^ 1 := by norm_num
          _ ≤ 2 ^ p := Nat.pow_le_pow_right (by norm_num) hp1
      nlinarith
    · left; exact h0

theorem cidrBlock_inner (IP0 : IP) (p : Nat) (hl : IP0.length = 4 ∨ IP0.length = 16)
    (hb : isBytes IP0) (hp1 : 1 ≤ p) (hp : p ≤ 8 * IP0.length) (hm : avoidsV4Mapped IP0 p)
    (acc : List IP) (fuel : Nat) (hf : 2 ^ (8 * IP0.length - p) + 1 ≤ fuel) :
    listSubnetAddresses.inner (cidrBlock IP0 p) fuel (IP.Mask IP0 (cidrBlock IP0 p).Mask) acc =
      some (acc ++
        List.iterate incIP (IP.Mask IP0 (cidrBlock IP0 p).Mask) (2 ^ (8 * IP0.length - p))) := by
  obtain ⟨hN, hN1⟩ := cidrBlock_bounds IP0 p hb hp1 hp
  obtain ⟨hml, hmb, hmv⟩ := Mask_cidrBlock IP0 p hl hb hp
  have hD : 0 < 2 ^ (8 * IP0.length - p) := by positivity
  refine inner_run (cidrBlock IP0 p) IP0.length _ _ hD ?_ hN hN1 _ _ acc hml hmb ?_
    (Nat.one_le_two_pow) (le_refl _) fuel hf
  · intro ip hil hib
    exact Contains_cidrBlock IP0 p ip hl hb hp hm hil hib
  · rw [hmv]; ring

theorem cidrBlock_list (IP0 : IP) (p : Nat) (hl : IP0.length = 4 ∨ IP0.length = 16)
    (hb : isBytes IP0) (hp1 : 1 ≤ p) (hp : p ≤ 8 * IP0.length) (hm : avoidsV4Mapped IP0 p)
    (fuel : Nat) (hf : 2 ^ (8 * IP0.length - p) + 1 ≤ fuel) :
    listSubnetAddresses fuel [cidrBlock IP0 p] =
      some (List.iterate incIP (IP.Mask IP0 (cidrBlock IP0 p).Mask)
        (2 ^ (8 * IP0.length - p))) := by
  have hIP : (cidrBlock IP0 p).IP = IP0 := rfl
  unfold listSubnetAddresses
  rw [listSubnetAddresses.outer, hIP, cidrBlock_inner IP0 p hl hb hp1 hp hm [] fuel hf]
  simp [listSubnetAddresses.outer]

theorem cidrBlock_values (IP0 : IP) (p : Nat) (hl : IP0.length = 4 ∨ IP0.length = 16)
    (hb : isBytes IP0) (hp1 : 1 ≤ p) (hp : p ≤ 8 * IP0.length) :
    (List.iterate incIP (IP.Mask IP0 (cidrBlock IP0 p).Mask)
        (2 ^ (8 * IP0.length - p))).map beValue =
      List.range' (beValue IP0 / 2 ^ (8 * IP0.length - p) * 2 ^ (8 * IP0.length - p))
        (2 ^ (8 * IP0.length - p)) ∧
    ∀ x ∈ List.iterate incIP (IP.Mask IP0 (cidrBlock IP0 p).Mask) (2 ^ (8 * IP0.length - p)),
      x.length = IP0.length ∧ isBytes x := by
  obtain ⟨hN, _⟩ := cidrBlock_bounds IP0 p hb hp1 hp
  obtain ⟨hml, hmb, hmv⟩ := Mask_cidrBlock IP0 p hl hb hp
  have := iterate_incIP_values IP0.length (2 ^ (8 * IP0.length - p)) _ hml hmb
    (by rw [hmv]; calc _ = _ := by ring
                       _ ≤ _ := hN)
  rw [hmv] at this
  exact this

/-! ## The enumeration loop -/

theorem inner_sound (nt : IPNet) : ∀ (fuel : Nat) (ip : IP) (acc l : List IP),
    listSubnetAddresses.inner nt fuel ip acc = some l →
      ∃ r, l = acc ++ r ∧ ∀ x ∈ r, nt.Contains x = true ∧ x.length = ip.length := by
  intro fuel
  induction fuel with
  | zero => intro ip acc l h; simp [listSubnetAddresses.inner] at h
  | succ f ih =>
    intro ip acc l h
    rw [listSubnetAddresses.inner] at h
    by_cases hc : nt.Contains ip = true
    · simp only [hc, if_true] at h
      obtain ⟨r, hr, hall⟩ := ih _ _ _ h
      refine ⟨ip :: r, by simp [hr], ?_⟩
      intro x hx
      rcases List.mem_cons.1 hx with rfl | hx
      · exact ⟨hc, rfl⟩
      · have := hall x hx
        rw [incIP_length] at this
        exact this
    · simp only [hc] at h
      refine ⟨[], ?_, by simp⟩
      simpa using h.symm

theorem inner_zero_ones : ∀ (fuel : Nat) (ip : IP) (acc : List IP), ip.length = 4 →
    isBytes ip → listSubnetAddresses.inner (cidrBlock [0, 0, 0, 0] 0) fuel ip acc = none := by
  intro fuel
  induction fuel with
  | zero => intro ip acc _ _; rfl
  | succ f ih =>
    intro ip acc hl hb
    have hc : (cidrBlock [0, 0, 0, 0] 0).Contains ip = true := by
      rw [Contains_cidrBlock [0, 0, 0, 0] 0 ip (Or.inl rfl) (by decide) (by decide)
        (by decide) hl hb]
      have hlt := beValue_lt ip hb
      rw [hl] at hlt
      have h0 : beValue ip / 2 ^ (8 * [0, 0, 0, 0].length - 0) = 0 :=
        Nat.div_eq_of_lt (by simpa using hlt)
      rw [h0]
      decide
    obtain ⟨hl', hb', _⟩ := incIP_spec ip hb
    rw [listSubnetAddresses.inner]
    simp only [hc, if_true]
    exact ih _ _ (hl'.trans hl) hb'

/-- C1, as stated, fails on the code.  On the block `0.0.0.0/0` the loop never leaves the
block (the increment of `255.255.255.255` wraps to `0.0.0.0`), so no amount of fuel
produces a list; and on the block `::/80` the list, if one is produced, does not end
at the broadcast address `::ffff:ffff:ffff`, which `Contains` rejects as IPv4-mapped. -/
theorem listSubnetAddresses_any_block_fails :
    (∀ fuel : Nat, listSubnetAddresses fuel [cidrBlock [0, 0, 0, 0] 0] = none) ∧
      (∀ (fuel : Nat) (l : List IP), listSubnetAddresses fuel [cidrBlock IPv6zero 80] = some l →
        l.getLast? ≠ some (broadcastAddress IPv6zero (cidrBlock IPv6zero 80).Mask)) := by
  constructor
  · intro fuel
    unfold listSubnetAddresses
    rw [listSubnetAddresses.outer]
    have : IP.Mask (cidrBlock [0, 0, 0, 0] 0).IP (cidrBlock [0, 0, 0, 0] 0).Mask =
        [0, 0, 0, 0] := by decide
    rw [this, inner_zero_ones fuel [0, 0, 0, 0] [] rfl (by decide)]
  · intro fuel l h hlast
    unfold listSubnetAddresses at h
    rw [listSubnetAddresses.outer] at h
    cases hi : listSubnetAddresses.inner (cidrBlock IPv6zero 80) fuel
        (IP.Mask (cidrBlock IPv6zero 80).IP (cidrBlock IPv6zero 80).Mask) [] with
    | none => rw [hi] at h; simp at h
    | some r =>
      rw [hi] at h
      simp only [listSubnetAddresses.outer, Option.some.injEq] at h
      subst h
      obtain ⟨r', hr', hall⟩ := inner_sound _ _ _ _ _ hi
      simp only [List.nil_append] at hr'
      subst hr'
      have hmem := List.mem_of_getLast?_eq_some hlast
      have hc := (hall _ hmem).1
      revert hc
      decide

/-- C1 (amended): for a block of a 4- or 16-byte address and prefix length `ones` with
`1 ≤ ones ≤ bits` (a 16-byte block with `ones < 96` not overlapping the IPv4-mapped
range), `listSubnetAddresses [B]` terminates and yields exactly `2 ^ (bits - ones)`
addresses, the first being the address with the mask applied, the last being the
broadcast address, strictly ascending as big-endian integers: the values are the
consecutive integers from the network address on. -/
theorem listSubnetAddresses_cidrBlock (ip : IP) (ones : Nat)
    (hl : ip.length = 4 ∨ ip.length = 16) (hb : isBytes ip) (h1 : 1 ≤ ones)
    (h2 : ones ≤ 8 * ip.length) (hm : avoidsV4Mapped ip ones) :
    ∃ l : List IP,
      (∀ fuel, 2 ^ (8 * ip.length - ones) + 1 ≤ fuel →
        listSubnetAddresses fuel [cidrBlock ip ones] = some l) ∧
      l.length = 2 ^ (8 * ip.length - ones) ∧
      l.head? = some (IP.Mask ip (cidrBlock ip ones).Mask) ∧
      l.getLast? = some (broadcastAddress ip (cidrBlock ip ones).Mask) ∧
      l.Pairwise (fun a b => beValue a < beValue b) ∧
      l.map beValue =
        List.range' (beValue ip / 2 ^ (8 * ip.length - ones) * 2 ^ (8 * ip.length - ones))
          (2 ^ (8 * ip.length - ones)) := by
  obtain ⟨hvals, hmem⟩ := cidrBlock_values ip ones hl hb h1 h2
  refine ⟨_, fun fuel hf => cidrBlock_list ip ones hl hb h1 h2 hm fuel hf, ?_, ?_, ?_, ?_,
    hvals⟩
  · simp
  · obtain ⟨d, hd⟩ : ∃ d, 2 ^ (8 * ip.length - ones) = d + 1 :=
      ⟨2 ^ (8 * ip.length - ones) - 1, by have := Nat.one_le_two_pow (n := 8 * ip.length - ones); omega⟩
    rw [hd]; simp [List.iterate]
  · obtain ⟨d, hd⟩ : ∃ d, 2 ^ (8 * ip.length - ones) = d + 1 :=
      ⟨2 ^ (8 * ip.length - ones) - 1, by have := Nat.one_le_two_pow (n := 8 * ip.length - ones); omega⟩
    have hlast := congrArg List.getLast? hvals
    rw [List.getLast?_map] at hlast
    rw [hd] at hlast hmem ⊢
    rw [List.getLast?_range'] at hlast
    simp only [Nat.add_one_ne_zero, if_false] at hlast
    cases hg : (List.iterate incIP (IP.Mask ip (cidrBlock ip ones).Mask) (d + 1)).getLast? with
    | none => rw [hg] at hlast; simp at hlast
    | some x =>
      rw [hg] at hlast
      simp only [Option.map_some', Option.some.injEq] at hlast
      obtain ⟨hxl, hxb⟩ := hmem x (List.mem_of_getLast?_eq_some hg)
      have hmask : (cidrBlock ip ones).Mask = CIDRMask.fill ip.length ones :=
        CIDRMask_eq_fill ones _ hl h2
      congr 1
      apply beValue_inj
      · simp [broadcastAddress, hxl, hmask, CIDRMask_fill_length]
      · exact hxb
      · exact isBytes_broadcast _ _ hb
      · rw [hlast, hmask, beValue_broadcast ip.length ones ip rfl hb h2, hd]
        simp
  · rw [← List.pairwise_map (f := beValue) (R := fun a b => a < b), hvals]
    exact List.pairwise_lt_range' _ _

/-- The enumeration of `10.0.0.0/30`. -/
theorem listSubnetAddresses_cidrBlock_witness :
    ∃ l : List IP,
      (∀ fuel, 2 ^ (8 * [10, 0, 0, 0].length - 30) + 1 ≤ fuel →
        listSubnetAddresses fuel [cidrBlock [10, 0, 0, 0] 30] = some l) ∧
      l.length = 2 ^ (8 * [10, 0, 0, 0].length - 30) ∧
      l.head? = some (IP.Mask [10, 0, 0, 0] (cidrBlock [10, 0, 0, 0] 30).Mask) ∧
      l.getLast? = some (broadcastAddress [10, 0, 0, 0] (cidrBlock [10, 0, 0, 0] 30).Mask) ∧
      l.Pairwise (fun a b => beValue a < beValue b) ∧
      l.map beValue =
        List.range' (beValue [10, 0, 0, 0] / 2 ^ (8 * [10, 0, 0, 0].length - 30) *
          2 ^ (8 * [10, 0, 0, 0].length - 30)) (2 ^ (8 * [10, 0, 0, 0].length - 30)) :=
  listSubnetAddresses_cidrBlock [10, 0, 0, 0] 30 (by decide) (by decide) (by decide)
    (by decide) (by decide)

/-! ## The address-family views -/

/-- C3: with a non-empty override partition `LocalAddresses` is
`listSubnetAddresses partition` with no error, whatever the host queries would answer
(two environments give the same result, also when the host query fails); with an empty
partition it is exactly the result of `listLocalAddresses family`, error included.
Both views. -/
theorem LocalAddresses_override_precedence (a4 : addressFamilyIPv4) (a6 : addressFamilyIPv6)
    (env env' : Env) (fuel : Nat) :
    (a4.subnetOverride ≠ [] →
        a4.LocalAddresses env fuel =
            (listSubnetAddresses fuel a4.subnetOverride).map Except.ok ∧
          (∀ err, a4.LocalAddresses env fuel ≠ some (Except.error err)) ∧
          a4.LocalAddresses env fuel = a4.LocalAddresses env' fuel) ∧
      (a4.subnetOverride = [] →
        a4.LocalAddresses env fuel = some (listLocalAddresses env FAMILY_V4)) ∧
      (a6.subnetOverride ≠ [] →
        a6.LocalAddresses env fuel =
            (listSubnetAddresses fuel a6.subnetOverride).map Except.ok ∧
          (∀ err, a6.LocalAddresses env fuel ≠ some (Except.error err)) ∧
          a6.LocalAddresses env fuel = a6.LocalAddresses env' fuel) ∧
      (a6.subnetOverride = [] →
        a6.LocalAddresses env fuel = some (listLocalAddresses env FAMILY_V6)) := by
  refine ⟨?_, ?_, ?_, ?_⟩
  · intro h
    have hpos : a4.subnetOverride.length > 0 := List.length_pos.2 h
    simp only [addressFamilyIPv4.LocalAddresses, hpos, if_true, and_true, true_and]
    intro err
    cases listSubnetAddresses fuel a4.subnetOverride <;> simp
  · intro h
    simp [addressFamilyIPv4.LocalAddresses, h]
  · intro h
    have hpos : a6.subnetOverride.length > 0 := List.length_pos.2 h
    simp only [addressFamilyIPv6.LocalAddresses, hpos, if_true, and_true, true_and]
    intro err
    cases listSubnetAddresses fuel a6.subnetOverride <;> simp
  · intro h
    simp [addressFamilyIPv6.LocalAddresses, h]

/-- C4: for the facade built from the override `10.0.0.0/30`, `IPv4().LocalAddresses()`
returns `[10.0.0.0, 10.0.0.1, 10.0.0.2, 10.0.0.3]` in that order with no error (five
loop iterations or more suffice), and `IPv6().LocalAddresses()` is the result of the
live query `listLocalAddresses FAMILY_V6`. -/
theorem NewNodeAddressing_slash30 (env : Env) (k : Nat) :
    (NewNodeAddressing [{ IP := [10, 0, 0, 0], Mask := [255, 255, 255, 252] }]).IPv4.LocalAddresses
        env (k + 5) =
      some (Except.ok [[10, 0, 0, 0], [10, 0, 0, 1], [10, 0, 0, 2], [10, 0, 0, 3]]) ∧
    (NewNodeAddressing [{ IP := [10, 0, 0, 0], Mask := [255, 255, 255, 252] }]).IPv6.LocalAddresses
        env (k + 5) =
      some (listLocalAddresses env FAMILY_V6) := by
  have hnew : NewNodeAddressing [{ IP := [10, 0, 0, 0], Mask := [255, 255, 255, 252] }] =
      { ipv6 := { subnetOverride := [] },
        ipv4 := { subnetOverride := [cidrBlock [10, 0, 0, 0] 30] } } := by decide
  rw [hnew]
  constructor
  · have h := cidrBlock_list [10, 0, 0, 0] 30 (by decide) (by decide) (by decide) (by decide)
      (by decide) (k + 5) (by simp)
    simp only [linuxNodeAddressing.IPv4, addressFamilyIPv4.LocalAddresses, List.length_singleton,
      gt_iff_lt, Nat.lt_one_iff, Nat.pos_of_ne_zero, if_true, h]
    rfl
  · simp [linuxNodeAddressing.IPv6, addressFamilyIPv6.LocalAddresses]

/-! ## The live address lister -/

theorem foldl_keep (E : List IP) (addrs : List Addr) : ∀ acc : List IP,
    addrs.foldl (listLocalAddresses.keep E) acc =
      acc ++ (addrs.filter fun a =>
        decide (a.Scope ≠ SCOPE_LINK) && !IsExcluded E a.IP && !a.IP.IsLoopback).map
          fun a => a.IP := by
  induction addrs with
  | nil => intro acc; simp
  | cons a as ih =>
    intro acc
    rw [List.foldl_cons, ih]
    unfold listLocalAddresses.keep
    by_cases h1 : a.Scope = SCOPE_LINK
    · simp [h1]
    · by_cases h2 : IsExcluded E a.IP = true
      · simp [h1, h2]
      · by_cases h3 : a.IP.IsLoopback = true
        · simp [h1, h2, h3]
        · simp [h1, h2, h3]

theorem foldl_keepHost (addrs : List Addr) : ∀ acc : List IP,
    addrs.foldl listLocalAddresses.keepHost acc =
      acc ++ (addrs.filter fun a => decide (a.Scope = SCOPE_LINK)).map fun a => a.IP := by
  induction addrs with
  | nil => intro acc; simp
  | cons a as ih =>
    intro acc
    rw [List.foldl_cons, ih]
    unfold listLocalAddresses.keepHost
    by_cases h1 : a.Scope = SCOPE_LINK
    · simp [h1]
    · simp [h1]

/-- C7: `LoadBalancerNodeAddresses` of the v4 view is the declared node-port list `D`
followed by the single address `0.0.0.0`, of the v6 view `D` followed by the all-zeros
v6 address: length `len D + 1`, the first `len D` elements are `D` in order, the last
element is the family's unspecified address. -/
theorem LoadBalancerNodeAddresses_wildcard (a4 : addressFamilyIPv4) (a6 : addressFamilyIPv6)
    (env : Env) :
    (a4.LoadBalancerNodeAddresses env = env.GetNodePortIPv4Addrs ++ [IPv4zero] ∧
        (a4.LoadBalancerNodeAddresses env).length = env.GetNodePortIPv4Addrs.length + 1 ∧
        (a4.LoadBalancerNodeAddresses env).take env.GetNodePortIPv4Addrs.length =
          env.GetNodePortIPv4Addrs ∧
        (a4.LoadBalancerNodeAddresses env).getLast? = some IPv4zero ∧
        IP.To4 IPv4zero = some [0, 0, 0, 0]) ∧
      (a6.LoadBalancerNodeAddresses env = env.GetNodePortIPv6Addrs ++ [IPv6zero] ∧
        (a6.LoadBalancerNodeAddresses env).length = env.GetNodePortIPv6Addrs.length + 1 ∧
        (a6.LoadBalancerNodeAddresses env).take env.GetNodePortIPv6Addrs.length =
          env.GetNodePortIPv6Addrs ∧
        (a6.LoadBalancerNodeAddresses env).getLast? = some IPv6zero ∧
        IPv6zero = List.replicate 16 0) := by
  refine ⟨⟨rfl, ?_, ?_, ?_, by decide⟩, ⟨rfl, ?_, ?_, ?_, by decide⟩⟩ <;>
    simp [addressFamilyIPv4.LoadBalancerNodeAddresses,
      addressFamilyIPv6.LoadBalancerNodeAddresses]

theorem foldl_split (nets : List IPNet) : ∀ acc : List IPNet × List IPNet,
    nets.foldl NewNodeAddressing.split acc =
      (acc.1 ++ nets.filter (fun n => (IP.To4 n.IP).isSome),
        acc.2 ++ nets.filter (fun n => !(IP.To4 n.IP).isSome)) := by
  induction nets with
  | nil => intro acc; simp
  | cons n ns ih =>
    intro acc
    rw [List.foldl_cons, ih]
    unfold NewNodeAddressing.split
    cases hT : IP.To4 n.IP <;> simp [List.filter_cons, hT]

theorem NewNodeAddressing_filters (subnetOverrides : List IPNet) :
    (NewNodeAddressing subnetOverrides).IPv4.subnetOverride =
        subnetOverrides.filter (fun n => (IP.To4 n.IP).isSome) ∧
      (NewNodeAddressing subnetOverrides).IPv6.subnetOverride =
        subnetOverrides.filter (fun n => !(IP.To4 n.IP).isSome) := by
  constructor
  · simp [NewNodeAddressing, linuxNodeAddressing.IPv4, foldl_split]
  · simp [NewNodeAddressing, linuxNodeAddressing.IPv6, foldl_split]

/-- C8: `NewNodeAddressing` gives the v4 view exactly the blocks whose address is an IPv4
address (`To4` is not nil) and the v6 view exactly the remaining blocks, each in input
order (a filter of the input, hence a subsequence); every input block lands in exactly
one of the two partitions and the partition lengths sum to the input length. -/
theorem NewNodeAddressing_partition (subnetOverrides : List IPNet) :
    (NewNodeAddressing subnetOverrides).IPv4.subnetOverride =
        subnetOverrides.filter (fun n => (IP.To4 n.IP).isSome) ∧
      (NewNodeAddressing subnetOverrides).IPv6.subnetOverride =
        subnetOverrides.filter (fun n => !(IP.To4 n.IP).isSome) ∧
      List.Sublist (NewNodeAddressing subnetOverrides).IPv4.subnetOverride subnetOverrides ∧
      List.Sublist (NewNodeAddressing subnetOverrides).IPv6.subnetOverride subnetOverrides ∧
      (∀ n ∈ subnetOverrides,
        (n ∈ (NewNodeAddressing subnetOverrides).IPv4.subnetOverride ∧
            n ∉ (NewNodeAddressing subnetOverrides).IPv6.subnetOverride) ∨
          (n ∉ (NewNodeAddressing subnetOverrides).IPv4.subnetOverride ∧
            n ∈ (NewNodeAddressing subnetOverrides).IPv6.subnetOverride)) ∧
      (NewNodeAddressing subnetOverrides).IPv4.subnetOverride.length +
          (NewNodeAddressing subnetOverrides).IPv6.subnetOverride.length =
        subnetOverrides.length := by
  obtain ⟨h4, h6⟩ := NewNodeAddressing_filters subnetOverrides
  rw [h4, h6]
  refine ⟨rfl, rfl, List.filter_sublist _, List.filter_sublist _, ?_, ?_⟩
  · intro n hn
    cases hT : IP.To4 n.IP with
    | none => right; simp [List.mem_filter, hn, hT]
    | some x => left; simp [List.mem_filter, hn, hT]
  · clear h4 h6
    induction subnetOverrides with
    | nil => rfl
    | cons n ns ih =>
      cases hT : IP.To4 n.IP with
      | none => simp only [List.filter_cons, hT, Option.isSome_none, Bool.not_false,
          if_true, Bool.false_eq_true, if_false, List.length_cons]; omega
      | some x => simp only [List.filter_cons, hT, Option.isSome_some, Bool.not_true,
          if_true, Bool.false_eq_true, if_false, List.length_cons]; omega

/-- C10: `listLocalAddresses family` returns an error exactly when the all-interfaces
address query fails, or the host interface is resolved (a link and no error) and the
address query on it fails; the error is the one the query produced (and an error result
carries no address list).  When the host interface is not resolved it succeeds whenever
the all-interfaces query succeeds. -/
theorem listLocalAddresses_error_iff (env : Env) (family : Nat) :
    (∀ err : Error, listLocalAddresses env family = Except.error err ↔
        (env.AddrList none family = Except.error err ∨
          ∃ (addrs : List Addr) (hostDevice : Link),
            env.AddrList none family = Except.ok addrs ∧
            env.LinkByName env.HostDevice = (some hostDevice, none) ∧
            env.AddrList (some hostDevice) family = Except.error err)) ∧
      ((∀ hostDevice : Link, env.LinkByName env.HostDevice ≠ (some hostDevice, none)) →
        ∀ addrs : List Addr, env.AddrList none family = Except.ok addrs →
          ∃ l, listLocalAddresses env family = Except.ok l) := by
  constructor
  · intro err
    unfold listLocalAddresses
    cases h1 : env.AddrList none family with
    | error e => simp
    | ok addrs =>
      simp only [false_or, reduceCtorEq, Except.ok.injEq, exists_and_left, exists_eq_left']
      rcases h2 : env.LinkByName env.HostDevice with ⟨link, lerr⟩
      cases link with
      | none => simp
      | some hd =>
        cases lerr with
        | some e => simp
        | none =>
          simp only [Prod.mk.injEq, Option.some.injEq, and_true, exists_eq_left']
          cases h3 : env.AddrList (some hd) family with
          | error e => simp
          | ok addrs2 => simp
  · intro hno addrs h1
    unfold listLocalAddresses
    rw [h1]
    rcases h2 : env.LinkByName env.HostDevice with ⟨link, lerr⟩
    cases link with
    | none => exact ⟨_, rfl⟩
    | some hd =>
      cases lerr with
      | some e => exact ⟨_, rfl⟩
      | none => exact absurd h2 (hno hd)

theorem listLocalAddresses_ok (env : Env) (family : Nat) (l : List IP)
    (h : listLocalAddresses env family = Except.ok l) :
    ∃ addrs : List Addr, env.AddrList none family = Except.ok addrs ∧
      ∃ host : List Addr,
        l = ((addrs.filter fun a => decide (a.Scope ≠ SCOPE_LINK) &&
              !IsExcluded env.GetExcludedIPs a.IP && !a.IP.IsLoopback).map fun a => a.IP) ++
            ((host.filter fun a => decide (a.Scope = SCOPE_LINK)).map fun a => a.IP) ∧
        (host = [] ∨ ∃ hostDevice : Link,
          env.LinkByName env.HostDevice = (some hostDevice, none) ∧
          env.AddrList (some hostDevice) family = Except.ok host) := by
  unfold listLocalAddresses at h
  cases h1 : env.AddrList none family with
  | error e => rw [h1] at h; simp at h
  | ok addrs =>
    rw [h1] at h
    refine ⟨addrs, rfl, ?_⟩
    simp only [foldl_keep, List.nil_append] at h
    rcases h2 : env.LinkByName env.HostDevice with ⟨link, lerr⟩
    rw [h2] at h
    cases link with
    | none =>
      simp only [Except.ok.injEq] at h
      exact ⟨[], by simp [← h], Or.inl rfl⟩
    | some hd =>
      cases lerr with
      | some e =>
        simp only [Except.ok.injEq] at h
        exact ⟨[], by simp [← h], Or.inl rfl⟩
      | none =>
        simp only at h
        cases h3 : env.AddrList (some hd) family with
        | error e => rw [h3] at h; simp at h
        | ok host =>
          rw [h3] at h
          simp only [foldl_keepHost, Except.ok.injEq] at h
          exact ⟨host, h.symm, Or.inr ⟨hd, rfl, h3⟩⟩

theorem IsExcluded_of_mem (E : List IP) (a : IP) (h : a ∈ E) : IsExcluded E a = true := by
  unfold IsExcluded
  rw [List.any_eq_true]
  exact ⟨a, h, by simp⟩

/-- C5, as stated, fails on the code: the excluded address `fe80::1`, reported with
link-local scope on the resolved host interface, is returned. -/
theorem listLocalAddresses_returns_excluded :
    [0xfe, 0x80, 0, 0, 0, 0, 0, 0, 0, 0, 0, 0, 0, 0, 0, 1] ∈
        (linkScopeHost [[0xfe, 0x80, 0, 0, 0, 0, 0, 0, 0, 0, 0, 0, 0, 0, 0, 1]]
          [0xfe, 0x80, 0, 0, 0, 0, 0, 0, 0, 0, 0, 0, 0, 0, 0, 1]).GetExcludedIPs ∧
      listLocalAddresses
          (linkScopeHost [[0xfe, 0x80, 0, 0, 0, 0, 0, 0, 0, 0, 0, 0, 0, 0, 0, 1]]
            [0xfe, 0x80, 0, 0, 0, 0, 0, 0, 0, 0, 0, 0, 0, 0, 0, 1]) FAMILY_V6 =
        Except.ok [[0xfe, 0x80, 0, 0, 0, 0, 0, 0, 0, 0, 0, 0, 0, 0, 0, 1]] :=
  ⟨by decide, rfl⟩

/-- C5 (amended): for an address `A` of the exclusion set, a successful
`listLocalAddresses family` does not contain `A`, however often and with whatever scope
the all-interfaces query reports it, unless the resolved host interface reports `A` with
link-local scope. -/
theorem listLocalAddresses_excludes (env : Env) (family : Nat) (A : IP) (l : List IP)
    (hA : A ∈ env.GetExcludedIPs) (h : listLocalAddresses env family = Except.ok l)
    (hhost : ∀ (hostDevice : Link) (host : List Addr),
      env.LinkByName env.HostDevice = (some hostDevice, none) →
      env.AddrList (some hostDevice) family = Except.ok host →
      { IP := A, Scope := SCOPE_LINK } ∉ host) :
    A ∉ l := by
  obtain ⟨addrs, _, host, hl, hh⟩ := listLocalAddresses_ok env family l h
  subst hl
  intro hmem
  rcases List.mem_append.1 hmem with hm | hm
  · obtain ⟨a, ha, rfl⟩ := List.mem_map.1 hm
    have := (List.mem_filter.1 ha).2
    simp [IsExcluded_of_mem _ _ hA] at this
  · obtain ⟨a, ha, rfl⟩ := List.mem_map.1 hm
    obtain ⟨hin, hs⟩ := List.mem_filter.1 ha
    rcases hh with rfl | ⟨hd, h2, h3⟩
    · simp at hin
    · apply hhost hd host h2 h3
      have : a = { IP := a.IP, Scope := SCOPE_LINK } := by
        cases a; simp at hs ⊢; exact hs
      rw [← this]; exact hin

/-- The excluded `192.168.0.7`, reported twice with global scope, is not returned. -/
theorem listLocalAddresses_excludes_witness :
    listLocalAddresses
        (globalScopeHost [[192, 168, 0, 7]] [[192, 168, 0, 7], [10, 0, 0, 1], [192, 168, 0, 7]])
        FAMILY_V4 = Except.ok [[10, 0, 0, 1]] ∧
      [192, 168, 0, 7] ∉ ([[10, 0, 0, 1]] : List IP) :=
  ⟨rfl,
    listLocalAddresses_excludes
      (globalScopeHost [[192, 168, 0, 7]] [[192, 168, 0, 7], [10, 0, 0, 1], [192, 168, 0, 7]])
      FAMILY_V4 [192, 168, 0, 7] [[10, 0, 0, 1]] (by decide) rfl
      (by intro hostDevice host h; simp [globalScopeHost] at h)⟩

/-- C6, as stated, fails on the code: the loopback address `127.0.0.1`, reported with
link-local scope on the resolved host interface, is returned. -/
theorem listLocalAddresses_returns_loopback :
    IP.IsLoopback [127, 0, 0, 1] = true ∧
      listLocalAddresses (linkScopeHost [] [127, 0, 0, 1]) FAMILY_V4 =
        Except.ok [[127, 0, 0, 1]] :=
  ⟨by decide, rfl⟩

/-- C6 (amended): a successful `listLocalAddresses family` contains no loopback address,
whatever the scope the all-interfaces query reports it with, unless the resolved host
interface reports that address with link-local scope. -/
theorem listLocalAddresses_no_loopback (env : Env) (family : Nat) (A : IP) (l : List IP)
    (hA : IP.IsLoopback A = true) (h : listLocalAddresses env family = Except.ok l)
    (hhost : ∀ (hostDevice : Link) (host : List Addr),
      env.LinkByName env.HostDevice = (some hostDevice, none) →
      env.AddrList (some hostDevice) family = Except.ok host →
      { IP := A, Scope := SCOPE_LINK } ∉ host) :
    A ∉ l := by
  obtain ⟨addrs, _, host, hl, hh⟩ := listLocalAddresses_ok env family l h
  subst hl
  intro hmem
  rcases List.mem_append.1 hmem with hm | hm
  · obtain ⟨a, ha, rfl⟩ := List.mem_map.1 hm
    have := (List.mem_filter.1 ha).2
    simp [hA] at this
  · obtain ⟨a, ha, rfl⟩ := List.mem_map.1 hm
    obtain ⟨hin, hs⟩ := List.mem_filter.1 ha
    rcases hh with rfl | ⟨hd, h2, h3⟩
    · simp at hin
    · apply hhost hd host h2 h3
      have : a = { IP := a.IP, Scope := SCOPE_LINK } := by
        cases a; simp at hs ⊢; exact hs
      rw [← this]; exact hin

/-- The loopback `127.0.0.1`, reported twice with global scope, is not returned. -/
theorem listLocalAddresses_no_loopback_witness :
    listLocalAddresses (globalScopeHost [] [[127, 0, 0, 1], [10, 0, 0, 1], [127, 0, 0, 1]])
        FAMILY_V4 = Except.ok [[10, 0, 0, 1]] ∧
      [127, 0, 0, 1] ∉ ([[10, 0, 0, 1]] : List IP) :=
  ⟨rfl,
    listLocalAddresses_no_loopback
      (globalScopeHost [] [[127, 0, 0, 1], [10, 0, 0, 1], [127, 0, 0, 1]])
      FAMILY_V4 [127, 0, 0, 1] [[10, 0, 0, 1]] (by decide) rfl
      (by intro hostDevice host h; simp [globalScopeHost] at h)⟩

/-! ## Family separation of the override partitions -/

theorem To4_length (ip y : IP) (h : IP.To4 ip = some y) : y.length = 4 := by
  unfold IP.To4 at h
  by_cases h4 : ip.length = IPv4len
  · simp only [h4, if_true, Option.some.injEq] at h
    rw [← h]; exact h4
  · simp only [h4, if_false] at h
    split at h
    · rename_i hc
      simp only [Option.some.injEq] at h
      rw [← h, List.length_drop, hc.1]; rfl
    · simp at h

theorem sw_fst_length (ip : IP) (m : IPMask) :
    (networkNumberAndMask.sw ip m).1.length = ip.length ∨
      (networkNumberAndMask.sw ip m).1.length = 0 := by
  unfold networkNumberAndMask.sw
  split
  · split
    · right; rfl
    · left; rfl
  · split
    · split
      · left; rfl
      · left; rfl
    · right; rfl

theorem Contains_length (nt : IPNet) (x : IP) (h : nt.Contains x = true) :
    ((IP.To4 x).getD x).length = (networkNumberAndMask nt).1.length := by
  unfold IPNet.Contains at h
  cases hx : IP.To4 x with
  | none =>
    rw [hx] at h
    simp only [Option.getD_none]
    by_contra hne
    simp [hne] at h
  | some y =>
    rw [hx] at h
    simp only [Option.getD_some]
    by_contra hne
    simp [hne] at h

theorem Contains_v4 (nt : IPNet) (x : IP) (h4 : (IP.To4 nt.IP).isSome = true)
    (h : nt.Contains x = true) (hx : x ≠ []) : (IP.To4 x).isSome = true := by
  have hlen := Contains_length nt x h
  obtain ⟨y, hy⟩ := Option.isSome_iff_exists.1 h4
  have hnn : (networkNumberAndMask nt).1.length = 4 ∨ (networkNumberAndMask nt).1.length = 0 := by
    unfold networkNumberAndMask
    rw [hy]
    have := sw_fst_length y nt.Mask
    rw [To4_length _ _ hy] at this
    exact this
  cases hT : IP.To4 x with
  | some z => rfl
  | none =>
    exfalso
    rw [hT] at hlen
    simp only [Option.getD_none] at hlen
    rcases hnn with h4' | h0
    · rw [h4'] at hlen
      simp [IP.To4, IPv4len, hlen] at hT
    · rw [h0] at hlen
      exact hx (List.length_eq_zero.1 hlen)

theorem Contains_v6 (nt : IPNet) (x : IP) (h6 : IP.To4 nt.IP = none)
    (h : nt.Contains x = true) (hx : x ≠ []) : IP.To4 x = none ∧ x.length = 16 := by
  have hlen := Contains_length nt x h
  have hnn : (networkNumberAndMask nt).1.length = 16 ∨ (networkNumberAndMask nt).1.length = 0 := by
    unfold networkNumberAndMask
    rw [h6]
    by_cases h16 : nt.IP.length = IPv6len
    · simp only [h16, ne_eq, not_true_eq_false, if_false]
      have := sw_fst_length nt.IP nt.Mask
      rw [h16] at this
      exact this
    · simp [h16]
  cases hT : IP.To4 x with
  | some z =>
    exfalso
    rw [hT] at hlen
    simp only [Option.getD_some, To4_length _ _ hT] at hlen
    omega
  | none =>
    rw [hT] at hlen
    simp only [Option.getD_none] at hlen
    rcases hnn with h16 | h0
    · exact ⟨rfl, hlen.trans h16⟩
    · rw [h0] at hlen
      exact absurd (List.length_eq_zero.1 hlen) hx

theorem inner_nil_diverges (nt : IPNet) (h : nt.Contains [] = true) :
    ∀ (fuel : Nat) (acc : List IP), listSubnetAddresses.inner nt fuel [] acc = none := by
  intro fuel
  induction fuel with
  | zero => intro acc; rfl
  | succ f ih =>
    intro acc
    rw [listSubnetAddresses.inner]
    simp only [h, if_true]
    exact ih _

theorem inner_emits (nt : IPNet) (fuel : Nat) (ip : IP) (acc l : List IP)
    (h : listSubnetAddresses.inner nt fuel ip acc = some l) :
    ∃ r, l = acc ++ r ∧ ∀ x ∈ r, nt.Contains x = true ∧ x ≠ [] := by
  obtain ⟨r, hr, hall⟩ := inner_sound nt fuel ip acc l h
  refine ⟨r, hr, fun x hx => ⟨(hall x hx).1, ?_⟩⟩
  intro hnil
  subst hnil
  obtain ⟨hc, hlen⟩ := hall [] hx
  have hip : ip = [] := List.length_eq_zero.1 hlen.symm
  subst hip
  rw [inner_nil_diverges nt hc] at h
  simp at h

theorem outer_emits (fuel : Nat) : ∀ (nets : List IPNet) (acc l : List IP),
    listSubnetAddresses.outer fuel nets acc = some l →
      ∃ r, l = acc ++ r ∧ ∀ x ∈ r, ∃ nt ∈ nets, nt.Contains x = true ∧ x ≠ [] := by
  intro nets
  induction nets with
  | nil =>
    intro acc l h
    simp only [listSubnetAddresses.outer, Option.some.injEq] at h
    exact ⟨[], by simp [h], by simp⟩
  | cons nt nets ih =>
    intro acc l h
    rw [listSubnetAddresses.outer] at h
    cases hi : listSubnetAddresses.inner nt fuel (IP.Mask nt.IP nt.Mask) acc with
    | none => rw [hi] at h; simp at h
    | some ips =>
      rw [hi] at h
      simp only at h
      obtain ⟨r1, hr1, h1⟩ := inner_emits nt fuel _ acc ips hi
      obtain ⟨r2, hr2, h2⟩ := ih ips l h
      refine ⟨r1 ++ r2, by rw [hr2, hr1, List.append_assoc], ?_⟩
      intro x hx
      rcases List.mem_append.1 hx with hx | hx
      · exact ⟨nt, List.mem_cons_self _ _, h1 x hx⟩
      · obtain ⟨nt', hnt', hc⟩ := h2 x hx
        exact ⟨nt', List.mem_cons_of_mem _ hnt', hc⟩

/-- C9: for every override list, every address returned by `IPv4().LocalAddresses()` of
the constructed facade in override mode is an IPv4 address (`To4` is not nil), and every
address returned by `IPv6().LocalAddresses()` in override mode is a 16-byte address that
is not an IPv4 address (`To4` is nil). -/
theorem NewNodeAddressing_family_separation (subnetOverrides : List IPNet) (env : Env)
    (fuel : Nat) (l : List IP) :
    (((NewNodeAddressing subnetOverrides).IPv4.subnetOverride ≠ [] ∧
        (NewNodeAddressing subnetOverrides).IPv4.LocalAddresses env fuel = some (Except.ok l)) →
        ∀ ip ∈ l, (IP.To4 ip).isSome = true) ∧
      (((NewNodeAddressing subnetOverrides).IPv6.subnetOverride ≠ [] ∧
        (NewNodeAddressing subnetOverrides).IPv6.LocalAddresses env fuel = some (Except.ok l)) →
        ∀ ip ∈ l, IP.To4 ip = none ∧ ip.length = 16) := by
  obtain ⟨h4, h6⟩ := NewNodeAddressing_filters subnetOverrides
  constructor
  · rintro ⟨hne, h⟩ ip hip
    have hpos : (NewNodeAddressing subnetOverrides).IPv4.subnetOverride.length > 0 :=
      List.length_pos.2 hne
    simp only [addressFamilyIPv4.LocalAddresses, hpos, if_true] at h
    cases hl : listSubnetAddresses fuel (NewNodeAddressing subnetOverrides).IPv4.subnetOverride with
    | none => rw [hl] at h; simp at h
    | some l' =>
      rw [hl] at h
      simp only [Option.map_some', Option.some.injEq, Except.ok.injEq] at h
      subst h
      obtain ⟨r, hr, hall⟩ := outer_emits fuel _ [] l' hl
      simp only [List.nil_append] at hr
      subst hr
      obtain ⟨nt, hnt, hc, hx⟩ := hall ip hip
      rw [h4] at hnt
      exact Contains_v4 nt ip (List.mem_filter.1 hnt).2 hc hx
  · rintro ⟨hne, h⟩ ip hip
    have hpos : (NewNodeAddressing subnetOverrides).IPv6.subnetOverride.length > 0 :=
      List.length_pos.2 hne
    simp only [addressFamilyIPv6.LocalAddresses, hpos, if_true] at h
    cases hl : listSubnetAddresses fuel (NewNodeAddressing subnetOverrides).IPv6.subnetOverride with
    | none => rw [hl] at h; simp at h
    | some l' =>
      rw [hl] at h
      simp only [Option.map_some', Option.some.injEq, Except.ok.injEq] at h
      subst h
      obtain ⟨r, hr, hall⟩ := outer_emits fuel _ [] l' hl
      simp only [List.nil_append] at hr
      subst hr
      obtain ⟨nt, hnt, hc, hx⟩ := hall ip hip
      rw [h6] at hnt
      have h6' := (List.mem_filter.1 hnt).2
      have hnone : IP.To4 nt.IP = none := by
        cases hT : IP.To4 nt.IP with
        | none => rfl
        | some y => rw [hT] at h6'; simp at h6'
      exact Contains_v6 nt ip hnone hc hx

/-- The two views of the facade built from `mixedOverrides`. -/
theorem NewNodeAddressing_family_separation_witness :
    (NewNodeAddressing mixedOverrides).IPv4.LocalAddresses (linkScopeHost [] []) 5 =
      some (Except.ok [[10, 0, 0, 0], [10, 0, 0, 1], [10, 0, 0, 2], [10, 0, 0, 3],
        IPv4 10 0 1 0, IPv4 10 0 1 1]) ∧
    (NewNodeAddressing mixedOverrides).IPv6.LocalAddresses (linkScopeHost [] []) 5 =
      some (Except.ok [[0xfd, 0, 0, 0, 0, 0, 0, 0, 0, 0, 0, 0, 0, 0, 0, 0],
        [0xfd, 0, 0, 0, 0, 0, 0, 0, 0, 0, 0, 0, 0, 0, 0, 1]]) ∧
    (∀ ip ∈ ([[10, 0, 0, 0], [10, 0, 0, 1], [10, 0, 0, 2], [10, 0, 0, 3],
        IPv4 10 0 1 0, IPv4 10 0 1 1] : List IP), (IP.To4 ip).isSome = true) ∧
    (∀ ip ∈ ([[0xfd, 0, 0, 0, 0, 0, 0, 0, 0, 0, 0, 0, 0, 0, 0, 0],
        [0xfd, 0, 0, 0, 0, 0, 0, 0, 0, 0, 0, 0, 0, 0, 0, 1]] : List IP),
      IP.To4 ip = none ∧ ip.length = 16) :=
  ⟨rfl, rfl,
    (NewNodeAddressing_family_separation mixedOverrides (linkScopeHost [] []) 5 _).1
      ⟨by decide, rfl⟩,
    (NewNodeAddressing_family_separation mixedOverrides (linkScopeHost [] []) 5 _).2
      ⟨by decide, rfl⟩⟩

/-! ## Error propagation and the shape of the live listing -/

/-- C11, as stated, fails on the code: resolving the host interface fails with
"operation not permitted" (not a "not found"), yet `listLocalAddresses`, and
`LocalAddresses` in live mode, succeed with the all-interfaces addresses. -/
theorem listLocalAddresses_swallows_link_error :
    (linkErrorHost notPermitted [[10, 0, 0, 1]]).LinkByName
        (linkErrorHost notPermitted [[10, 0, 0, 1]]).HostDevice = (none, some notPermitted) ∧
      listLocalAddresses (linkErrorHost notPermitted [[10, 0, 0, 1]]) FAMILY_V4 =
        Except.ok [[10, 0, 0, 1]] ∧
      addressFamilyIPv4.LocalAddresses { subnetOverride := [] }
          (linkErrorHost notPermitted [[10, 0, 0, 1]]) 0 =
        some (Except.ok [[10, 0, 0, 1]]) :=
  ⟨rfl, rfl, rfl⟩

/-- C11 (amended): every error of the two address queries of `listLocalAddresses` (the
all-interfaces query, and the query on the resolved host interface) is returned
unchanged, also through `LocalAddresses` in live mode; an error of resolving the host
interface by name, whatever its reason, is not returned: the host-interface step is
skipped and the all-interfaces addresses are returned. -/
theorem listLocalAddresses_propagation (env : Env) (family : Nat) :
    (∀ err : Error, env.AddrList none family = Except.error err →
        listLocalAddresses env family = Except.error err) ∧
      (∀ (err : Error) (addrs : List Addr) (hostDevice : Link),
        env.AddrList none family = Except.ok addrs →
        env.LinkByName env.HostDevice = (some hostDevice, none) →
        env.AddrList (some hostDevice) family = Except.error err →
        listLocalAddresses env family = Except.error err) ∧
      (∀ (err : Error) (link : Option Link) (addrs : List Addr),
        env.AddrList none family = Except.ok addrs →
        env.LinkByName env.HostDevice = (link, some err) →
        listLocalAddresses env family = Except.ok (keptAddresses env.GetExcludedIPs addrs)) ∧
      (∀ (a4 : addressFamilyIPv4) (fuel : Nat), a4.subnetOverride = [] →
        a4.LocalAddresses env fuel = some (listLocalAddresses env FAMILY_V4)) ∧
      (∀ (a6 : addressFamilyIPv6) (fuel : Nat), a6.subnetOverride = [] →
        a6.LocalAddresses env fuel = some (listLocalAddresses env FAMILY_V6)) := by
  refine ⟨?_, ?_, ?_, ?_, ?_⟩
  · intro err h
    simp [listLocalAddresses, h]
  · intro err addrs hd h1 h2 h3
    simp [listLocalAddresses, h1, h2, h3]
  · intro err link addrs h1 h2
    unfold listLocalAddresses
    rw [h1]
    simp only [h2, foldl_keep, List.nil_append, keptAddresses]
  · intro a4 fuel h
    simp [addressFamilyIPv4.LocalAddresses, h]
  · intro a6 fuel h
    simp [addressFamilyIPv6.LocalAddresses, h]

/-- C13: for each family the view's `Router`, `PrimaryExternal` and `AllocationCIDR`
return the node identity record's router address, external address and allocation CIDR
of that same family, whatever the view's override partition. -/
theorem view_identity_accessors (a4 a4' : addressFamilyIPv4) (a6 a6' : addressFamilyIPv6)
    (n : NodeIdentity) :
    (a4.Router n = n.v4.Router ∧ a4.PrimaryExternal n = n.v4.PrimaryExternal ∧
        a4.AllocationCIDR n = n.v4.AllocationCIDR) ∧
      (a6.Router n = n.v6.Router ∧ a6.PrimaryExternal n = n.v6.PrimaryExternal ∧
        a6.AllocationCIDR n = n.v6.AllocationCIDR) ∧
      (a4.Router n = a4'.Router n ∧ a4.PrimaryExternal n = a4'.PrimaryExternal n ∧
        a4.AllocationCIDR n = a4'.AllocationCIDR n) ∧
      (a6.Router n = a6'.Router n ∧ a6.PrimaryExternal n = a6'.PrimaryExternal n ∧
        a6.AllocationCIDR n = a6'.AllocationCIDR n) :=
  ⟨⟨rfl, rfl, rfl⟩, ⟨rfl, rfl, rfl⟩, ⟨rfl, rfl, rfl⟩, ⟨rfl, rfl, rfl⟩⟩

/-- C14: a successful `listLocalAddresses family` returns `L1 ++ L2`: `L1` is the
all-interfaces query result filtered, in query order, to the addresses that are not
link-local scope, not excluded and not loopback; `L2` is the query result of the
resolved host interface filtered, in query order, to the addresses of link-local scope,
and is empty when the host interface is not resolved. -/
theorem listLocalAddresses_concatenation (env : Env) (family : Nat) (l : List IP)
    (h : listLocalAddresses env family = Except.ok l) :
    ∃ addrs : List Addr, env.AddrList none family = Except.ok addrs ∧
      ((∃ (hostDevice : Link) (host : List Addr),
          env.LinkByName env.HostDevice = (some hostDevice, none) ∧
          env.AddrList (some hostDevice) family = Except.ok host ∧
          l = keptAddresses env.GetExcludedIPs addrs ++ linkLocalAddresses host) ∨
        ((∀ hostDevice : Link, env.LinkByName env.HostDevice ≠ (some hostDevice, none)) ∧
          l = keptAddresses env.GetExcludedIPs addrs ++ [])) := by
  unfold listLocalAddresses at h
  cases h1 : env.AddrList none family with
  | error e => rw [h1] at h; simp at h
  | ok addrs =>
    rw [h1] at h
    refine ⟨addrs, rfl, ?_⟩
    simp only [foldl_keep, List.nil_append] at h
    rcases h2 : env.LinkByName env.HostDevice with ⟨link, lerr⟩
    rw [h2] at h
    cases link with
    | none =>
      simp only [Except.ok.injEq] at h
      exact Or.inr ⟨by simp, by simp [keptAddresses, ← h]⟩
    | some hd =>
      cases lerr with
      | some e =>
        simp only [Except.ok.injEq] at h
        exact Or.inr ⟨by simp, by simp [keptAddresses, ← h]⟩
      | none =>
        simp only at h
        cases h3 : env.AddrList (some hd) family with
        | error e => rw [h3] at h; simp at h
        | ok host =>
          rw [h3] at h
          simp only [foldl_keepHost, Except.ok.injEq] at h
          exact Or.inl ⟨hd, host, rfl, h3, by simp [keptAddresses, linkLocalAddresses, ← h]⟩

/-- The listing of a host whose every query reports `fe80::1` with link-local scope. -/
theorem listLocalAddresses_concatenation_witness :
    ∃ addrs : List Addr,
      (linkScopeHost [] [0xfe, 0x80, 0, 0, 0, 0, 0, 0, 0, 0, 0, 0, 0, 0, 0, 1]).AddrList none
          FAMILY_V6 = Except.ok addrs ∧
      ((∃ (hostDevice : Link) (host : List Addr),
          (linkScopeHost [] [0xfe, 0x80, 0, 0, 0, 0, 0, 0, 0, 0, 0, 0, 0, 0, 0, 1]).LinkByName
              (linkScopeHost [] [0xfe, 0x80, 0, 0, 0, 0, 0, 0, 0, 0, 0, 0, 0, 0, 0, 1]).HostDevice =
            (some hostDevice, none) ∧
          (linkScopeHost [] [0xfe, 0x80, 0, 0, 0, 0, 0, 0, 0, 0, 0, 0, 0, 0, 0, 1]).AddrList
              (some hostDevice) FAMILY_V6 = Except.ok host ∧
          [[0xfe, 0x80, 0, 0, 0, 0, 0, 0, 0, 0, 0, 0, 0, 0, 0, 1]] =
            keptAddresses
                (linkScopeHost [] [0xfe, 0x80, 0, 0, 0, 0, 0, 0, 0, 0, 0, 0, 0, 0, 0, 1]).GetExcludedIPs
                addrs ++
              linkLocalAddresses host) ∨
        ((∀ hostDevice : Link,
            (linkScopeHost [] [0xfe, 0x80, 0, 0, 0, 0, 0, 0, 0, 0, 0, 0, 0, 0, 0, 1]).LinkByName
                (linkScopeHost [] [0xfe, 0x80, 0, 0, 0, 0, 0, 0, 0, 0, 0, 0, 0, 0, 0, 1]).HostDevice ≠
              (some hostDevice, none)) ∧
          [[0xfe, 0x80, 0, 0, 0, 0, 0, 0, 0, 0, 0, 0, 0, 0, 0, 1]] =
            keptAddresses
                (linkScopeHost [] [0xfe, 0x80, 0, 0, 0, 0, 0, 0, 0, 0, 0, 0, 0, 0, 0, 1]).GetExcludedIPs
                addrs ++
              [])) :=
  listLocalAddresses_concatenation
    (linkScopeHost [] [0xfe, 0x80, 0, 0, 0, 0, 0, 0, 0, 0, 0, 0, 0, 0, 0, 1]) FAMILY_V6
    [[0xfe, 0x80, 0, 0, 0, 0, 0, 0, 0, 0, 0, 0, 0, 0, 0, 1]] rfl

/-! ## Block order and dependence on the network address -/

theorem inner_acc (nt : IPNet) : ∀ (fuel : Nat) (ip : IP) (acc : List IP),
    listSubnetAddresses.inner nt fuel ip acc =
      (listSubnetAddresses.inner nt fuel ip []).map fun r => acc ++ r := by
  intro fuel
  induction fuel with
  | zero => intro ip acc; rfl
  | succ f ih =>
    intro ip acc
    rw [listSubnetAddresses.inner, listSubnetAddresses.inner]
    by_cases hc : nt.Contains ip = true
    · simp only [hc, if_true, List.nil_append]
      rw [ih (incIP ip) (acc ++ [ip]), ih (incIP ip) [ip]]
      cases listSubnetAddresses.inner nt f (incIP ip) [] <;> simp
    · simp [hc]

theorem outer_acc (fuel : Nat) : ∀ (nets : List IPNet) (acc : List IP),
    listSubnetAddresses.outer fuel nets acc =
      (listSubnetAddresses.outer fuel nets []).map fun r => acc ++ r := by
  intro nets
  induction nets with
  | nil => intro acc; simp [listSubnetAddresses.outer]
  | cons nt nets ih =>
    intro acc
    rw [listSubnetAddresses.outer, listSubnetAddresses.outer, inner_acc nt fuel _ acc]
    cases hi : listSubnetAddresses.inner nt fuel (IP.Mask nt.IP nt.Mask) [] with
    | none => simp
    | some r =>
      simp only [Option.map_some', List.append_nil]
      rw [ih (acc ++ r), ih r]
      cases listSubnetAddresses.outer fuel nets [] <;> simp

theorem outer_append (fuel : Nat) (ys : List IPNet) : ∀ (xs : List IPNet) (acc : List IP),
    listSubnetAddresses.outer fuel (xs ++ ys) acc =
      (listSubnetAddresses.outer fuel xs acc).bind (listSubnetAddresses.outer fuel ys) := by
  intro xs
  induction xs with
  | nil => intro acc; simp [listSubnetAddresses.outer]
  | cons nt xs ih =>
    intro acc
    rw [List.cons_append, listSubnetAddresses.outer, listSubnetAddresses.outer]
    cases listSubnetAddresses.inner nt fuel (IP.Mask nt.IP nt.Mask) acc with
    | none => simp
    | some r => simp only; exact ih r

theorem listSubnetAddresses_append_eq (fuel : Nat) (xs ys : List IPNet) :
    listSubnetAddresses fuel (xs ++ ys) =
      (listSubnetAddresses fuel xs).bind fun lx =>
        (listSubnetAddresses fuel ys).map fun ly => lx ++ ly := by
  unfold listSubnetAddresses
  rw [outer_append]
  cases listSubnetAddresses.outer fuel xs [] with
  | none => rfl
  | some lx => simp only [Option.some_bind]; exact outer_acc fuel ys lx

theorem inner_mono (nt : IPNet) : ∀ (fuel : Nat) (ip : IP) (acc l : List IP),
    listSubnetAddresses.inner nt fuel ip acc = some l →
      ∀ fuel', fuel ≤ fuel' → listSubnetAddresses.inner nt fuel' ip acc = some l := by
  intro fuel
  induction fuel with
  | zero => intro ip acc l h; simp [listSubnetAddresses.inner] at h
  | succ f ih =>
    intro ip acc l h fuel' hle
    obtain ⟨g, rfl⟩ : ∃ g, fuel' = g + 1 := ⟨fuel' - 1, by omega⟩
    rw [listSubnetAddresses.inner] at h ⊢
    by_cases hc : nt.Contains ip = true
    · simp only [hc, if_true] at h ⊢
      exact ih _ _ _ h g (by omega)
    · simp only [hc] at h ⊢
      exact h

theorem outer_mono (fuel fuel' : Nat) (hle : fuel ≤ fuel') : ∀ (nets : List IPNet)
    (acc l : List IP), listSubnetAddresses.outer fuel nets acc = some l →
      listSubnetAddresses.outer fuel' nets acc = some l := by
  intro nets
  induction nets with
  | nil => intro acc l h; simpa [listSubnetAddresses.outer] using h
  | cons nt nets ih =>
    intro acc l h
    rw [listSubnetAddresses.outer] at h ⊢
    cases hi : listSubnetAddresses.inner nt fuel (IP.Mask nt.IP nt.Mask) acc with
    | none => rw [hi] at h; simp at h
    | some r =>
      rw [hi] at h
      rw [inner_mono nt fuel _ acc r hi fuel' hle]
      exact ih r l h

theorem listSubnetAddresses_mono (fuel fuel' : Nat) (hle : fuel ≤ fuel') (nets : List IPNet)
    (l : List IP) (h : listSubnetAddresses fuel nets = some l) :
    listSubnetAddresses fuel' nets = some l :=
  outer_mono fuel fuel' hle nets [] l h

theorem listSubnetAddresses_join (fuel : Nat) : ∀ (nets : List IPNet) (l : List IP),
    listSubnetAddresses fuel nets = some l →
      ∃ ls : List (List IP),
        List.Forall₂ (fun nt r => listSubnetAddresses fuel [nt] = some r) nets ls ∧
          l = ls.flatten := by
  intro nets
  induction nets with
  | nil =>
    intro l h
    simp only [listSubnetAddresses, listSubnetAddresses.outer, Option.some.injEq] at h
    exact ⟨[], List.Forall₂.nil, by simp [← h]⟩
  | cons nt nets ih =>
    intro l h
    have e := listSubnetAddresses_append_eq fuel [nt] nets
    rw [List.singleton_append, h] at e
    cases h1 : listSubnetAddresses fuel [nt] with
    | none => rw [h1] at e; simp at e
    | some r =>
      rw [h1] at e
      cases h2 : listSubnetAddresses fuel nets with
      | none => rw [h2] at e; simp at e
      | some rs =>
        rw [h2] at e
        simp only [Option.some_bind, Option.map_some', Option.some.injEq] at e
        obtain ⟨ls, hls, hj⟩ := ih rs h2
        exact ⟨r :: ls, List.Forall₂.cons h1 hls, by simp [e, hj]⟩

/-- C15: when the enumerations of `xs` and of `ys` terminate, the enumeration of
`xs ++ ys` terminates and is the concatenation of the two lists; the enumeration of the
empty list is empty; hence the output for a list of blocks is the concatenation, in
input order, of the per-block enumerations. -/
theorem listSubnetAddresses_append (xs ys : List IPNet) (fx fy : Nat) (lx ly : List IP)
    (hx : listSubnetAddresses fx xs = some lx) (hy : listSubnetAddresses fy ys = some ly) :
    (∀ fuel, fx ≤ fuel → fy ≤ fuel →
        listSubnetAddresses fuel (xs ++ ys) = some (lx ++ ly)) ∧
      (∀ fuel, listSubnetAddresses fuel [] = some []) ∧
      (∀ (fuel : Nat) (nets : List IPNet) (l : List IP),
        listSubnetAddresses fuel nets = some l →
          ∃ ls : List (List IP),
            List.Forall₂ (fun nt r => listSubnetAddresses fuel [nt] = some r) nets ls ∧
              l = ls.flatten) := by
  refine ⟨?_, fun _ => rfl, fun fuel nets l h => listSubnetAddresses_join fuel nets l h⟩
  intro fuel h1 h2
  rw [listSubnetAddresses_append_eq, listSubnetAddresses_mono fx fuel h1 xs lx hx,
    listSubnetAddresses_mono fy fuel h2 ys ly hy]
  rfl

/-- The enumeration of `10.0.0.0/30` followed by `fd00::/127`. -/
theorem listSubnetAddresses_append_witness :
    listSubnetAddresses 5
        ([cidrBlock [10, 0, 0, 0] 30] ++
          [cidrBlock [0xfd, 0, 0, 0, 0, 0, 0, 0, 0, 0, 0, 0, 0, 0, 0, 0] 127]) =
      some ([[10, 0, 0, 0], [10, 0, 0, 1], [10, 0, 0, 2], [10, 0, 0, 3]] ++
        [[0xfd, 0, 0, 0, 0, 0, 0, 0, 0, 0, 0, 0, 0, 0, 0, 0],
          [0xfd, 0, 0, 0, 0, 0, 0, 0, 0, 0, 0, 0, 0, 0, 0, 1]]) :=
  (listSubnetAddresses_append [cidrBlock [10, 0, 0, 0] 30]
    [cidrBlock [0xfd, 0, 0, 0, 0, 0, 0, 0, 0, 0, 0, 0, 0, 0, 0, 0] 127] 5 3 _ _ rfl rfl).1 5
    (by decide) (by decide)

theorem networkNumberAndMask_same_width (ip : IP) (m : IPMask) (h : ip.length = m.length) :
    networkNumberAndMask { IP := ip, Mask := m } =
      if ip.length = 4 then (ip, m)
      else if ip.length = 16 then
        if ip.take 12 = v4InV6Prefix then (ip.drop 12, m.drop 12) else (ip, m)
      else ([], []) := by
  by_cases h4 : ip.length = 4
  · simp [networkNumberAndMask, To4_of_length4 _ h4, networkNumberAndMask.sw, IPv4len, h4,
      ← h]
  · by_cases h16 : ip.length = 16
    · rw [if_neg h4, if_pos h16]
      by_cases hm : ip.take 12 = v4InV6Prefix
      · simp [networkNumberAndMask, To4_of_length16 _ h16, hm, networkNumberAndMask.sw,
          IPv4len, IPv6len, h16, ← h]
      · simp [networkNumberAndMask, To4_of_length16 _ h16, hm, networkNumberAndMask.sw,
          IPv4len, IPv6len, h16, ← h]
    · have hnone : IP.To4 ip = none := by simp [IP.To4, IPv4len, IPv6len, h4, h16]
      simp [networkNumberAndMask, hnone, IPv6len, h4, h16]

theorem To4_isSome_length16 (ip : IP) (h : ip.length = 16) :
    (IP.To4 ip).isSome = decide (ip.take 12 = v4InV6Prefix) := by
  rw [To4_of_length16 ip h]
  by_cases hm : ip.take 12 = v4InV6Prefix <;> simp [hm]

theorem Mask_pointwise (ip1 ip2 : IP) (m : IPMask) (h1 : ip1.length = m.length)
    (h2 : ip2.length = m.length) (hm : IP.Mask ip1 m = IP.Mask ip2 m) (i : Nat) :
    ip1.getD i 0 &&& m.getD i 0 = ip2.getD i 0 &&& m.getD i 0 := by
  by_cases hi : i < m.length
  · rw [Mask_eq_zipWith _ _ h1, Mask_eq_zipWith _ _ h2] at hm
    have := congrArg (fun l => l.getD i 0) hm
    simpa [List.getD_eq_getElem?_getD, List.getElem?_eq_getElem, hi, h1, h2] using this
  · have e1 : ip1.getD i 0 = 0 := by
      rw [List.getD_eq_getElem?_getD, List.getElem?_eq_none (by omega)]; rfl
    have e2 : ip2.getD i 0 = 0 := by
      rw [List.getD_eq_getElem?_getD, List.getElem?_eq_none (by omega)]; rfl
    rw [e1, e2]

theorem getD_drop (l : List Nat) (k i : Nat) : (l.drop k).getD i 0 = l.getD (k + i) 0 := by
  simp [List.getD_eq_getElem?_getD, List.getElem?_drop]

theorem Contains_of_networkNumberAndMask (nt1 nt2 : IPNet) (x : IP)
    (hlen : (networkNumberAndMask nt1).1.length = (networkNumberAndMask nt2).1.length)
    (hm : (networkNumberAndMask nt1).2 = (networkNumberAndMask nt2).2)
    (hp : ∀ i, (networkNumberAndMask nt1).1.getD i 0 &&& (networkNumberAndMask nt1).2.getD i 0 =
      (networkNumberAndMask nt2).1.getD i 0 &&& (networkNumberAndMask nt2).2.getD i 0) :
    nt1.Contains x = nt2.Contains x := by
  unfold IPNet.Contains
  simp only [hlen, ← hm]
  have hf : ∀ y : IP, (fun i => (networkNumberAndMask nt1).1.getD i 0 &&&
        (networkNumberAndMask nt1).2.getD i 0 == y.getD i 0 &&&
          (networkNumberAndMask nt1).2.getD i 0) =
      (fun i => (networkNumberAndMask nt2).1.getD i 0 &&&
        (networkNumberAndMask nt1).2.getD i 0 == y.getD i 0 &&&
          (networkNumberAndMask nt1).2.getD i 0) := by
    intro y; funext i
    have := hp i
    rw [← hm] at this
    rw [this]
  rw [hf]

theorem Contains_congr (ip1 ip2 : IP) (m : IPMask) (h1 : ip1.length = m.length)
    (h2 : ip2.length = m.length) (hm : IP.Mask ip1 m = IP.Mask ip2 m)
    (h4 : (IP.To4 ip1).isSome = (IP.To4 ip2).isSome) (x : IP) :
    IPNet.Contains { IP := ip1, Mask := m } x = IPNet.Contains { IP := ip2, Mask := m } x := by
  have hp := Mask_pointwise ip1 ip2 m h1 h2 hm
  have hl : ip1.length = ip2.length := h1.trans h2.symm
  have e1 := networkNumberAndMask_same_width ip1 m h1
  have e2 := networkNumberAndMask_same_width ip2 m h2
  rw [← hl] at e2
  by_cases c4 : ip1.length = 4
  · rw [if_pos c4] at e1 e2
    apply Contains_of_networkNumberAndMask <;> rw [e1, e2]
    · exact hl
    · exact hp
  · by_cases c16 : ip1.length = 16
    · rw [To4_isSome_length16 ip1 c16, To4_isSome_length16 ip2 (hl ▸ c16)] at h4
      rw [if_neg c4, if_pos c16] at e1 e2
      by_cases m1 : ip1.take 12 = v4InV6Prefix
      · have m2 : ip2.take 12 = v4InV6Prefix := by simpa [m1] using h4.symm
        rw [if_pos m1] at e1
        rw [if_pos m2] at e2
        apply Contains_of_networkNumberAndMask <;> rw [e1, e2]
        · simp [hl]
        · intro i
          simp only [getD_drop]
          exact hp _
      · have m2 : ¬ ip2.take 12 = v4InV6Prefix := by simpa [m1] using h4.symm
        rw [if_neg m1] at e1
        rw [if_neg m2] at e2
        apply Contains_of_networkNumberAndMask <;> rw [e1, e2]
        · exact hl
        · exact hp
    · rw [if_neg c4, if_neg c16] at e1 e2
      apply Contains_of_networkNumberAndMask <;> rw [e1, e2]
      · intro i; rfl

theorem inner_congr (nt1 nt2 : IPNet) (h : ∀ x, nt1.Contains x = nt2.Contains x) :
    ∀ (fuel : Nat) (ip : IP) (acc : List IP),
      listSubnetAddresses.inner nt1 fuel ip acc = listSubnetAddresses.inner nt2 fuel ip acc := by
  intro fuel
  induction fuel with
  | zero => intro ip acc; rfl
  | succ f ih =>
    intro ip acc
    rw [listSubnetAddresses.inner, listSubnetAddresses.inner, h ip, ih]

theorem inner_head (nt : IPNet) (fuel : Nat) (ip : IP) (l : List IP) (x : IP)
    (h : listSubnetAddresses.inner nt fuel ip [] = some l) (hx : l.head? = some x) : x = ip := by
  cases fuel with
  | zero => simp [listSubnetAddresses.inner] at h
  | succ f =>
    rw [listSubnetAddresses.inner] at h
    by_cases hc : nt.Contains ip = true
    · simp only [hc, if_true, List.nil_append] at h
      obtain ⟨r, hr, _⟩ := inner_sound nt f _ _ l h
      rw [hr] at hx
      simpa using hx.symm
    · simp only [hc] at h
      simp only [Bool.false_eq_true, if_false, Option.some.injEq] at h
      rw [← h] at hx
      simp at hx

theorem listSubnetAddresses_singleton (fuel : Nat) (nt : IPNet) :
    listSubnetAddresses fuel [nt] =
      listSubnetAddresses.inner nt fuel (IP.Mask nt.IP nt.Mask) [] := by
  unfold listSubnetAddresses
  rw [listSubnetAddresses.outer]
  cases listSubnetAddresses.inner nt fuel (IP.Mask nt.IP nt.Mask) [] <;>
    simp [listSubnetAddresses.outer]

/-- C16, as stated, fails on the code: the blocks `::ffff:1.2.3.4/80` and `::/80` have
the same mask and addresses that agree on the network bits, yet the first enumerates
nothing (its masked address `::` is rejected by `Contains`, which compares with the
4-byte form of the block address) while the second never returns the empty list. -/
theorem listSubnetAddresses_mapped_differs :
    (cidrBlock (IPv4 1 2 3 4) 80).Mask = (cidrBlock IPv6zero 80).Mask ∧
      IP.Mask (IPv4 1 2 3 4) (cidrBlock (IPv4 1 2 3 4) 80).Mask =
        IP.Mask IPv6zero (cidrBlock IPv6zero 80).Mask ∧
      (∀ fuel : Nat, listSubnetAddresses (fuel + 1) [cidrBlock (IPv4 1 2 3 4) 80] = some []) ∧
      (∀ (fuel : Nat) (l : List IP),
        listSubnetAddresses fuel [cidrBlock IPv6zero 80] = some l → l ≠ []) := by
  refine ⟨by decide, by decide, ?_, ?_⟩
  · intro fuel
    rw [listSubnetAddresses_singleton, listSubnetAddresses.inner]
    have hc : (cidrBlock (IPv4 1 2 3 4) 80).Contains
        (IP.Mask (cidrBlock (IPv4 1 2 3 4) 80).IP (cidrBlock (IPv4 1 2 3 4) 80).Mask) = false := by
      decide
    simp [hc]
  · intro fuel l h hnil
    rw [listSubnetAddresses_singleton] at h
    cases fuel with
    | zero => simp [listSubnetAddresses.inner] at h
    | succ f =>
      rw [listSubnetAddresses.inner] at h
      have hc : (cidrBlock IPv6zero 80).Contains
          (IP.Mask (cidrBlock IPv6zero 80).IP (cidrBlock IPv6zero 80).Mask) = true := by
        decide
      simp only [hc, if_true, List.nil_append] at h
      obtain ⟨r, hr, _⟩ := inner_sound _ f _ _ l h
      rw [hnil] at hr
      simp at hr

/-- C16 (amended): for two blocks with the same mask, addresses as wide as the mask that
agree on the network bits (the mask applied gives the same address), and that are both
IPv4 addresses or both not (`To4` is nil for both or for neither),
`listSubnetAddresses` returns the same result; the list starts at the network address
(the address with the mask applied), not at the block's stated address. -/
theorem listSubnetAddresses_network_only (ip1 ip2 : IP) (m : IPMask)
    (h1 : ip1.length = m.length) (h2 : ip2.length = m.length)
    (hm : IP.Mask ip1 m = IP.Mask ip2 m)
    (h4 : (IP.To4 ip1).isSome = (IP.To4 ip2).isSome) :
    (∀ fuel : Nat, listSubnetAddresses fuel [{ IP := ip1, Mask := m }] =
        listSubnetAddresses fuel [{ IP := ip2, Mask := m }]) ∧
      (∀ (fuel : Nat) (l : List IP) (x : IP),
        listSubnetAddresses fuel [{ IP := ip1, Mask := m }] = some l →
          l.head? = some x → x = IP.Mask ip1 m) := by
  constructor
  · intro fuel
    rw [listSubnetAddresses_singleton, listSubnetAddresses_singleton]
    simp only [hm]
    exact inner_congr _ _ (Contains_congr ip1 ip2 m h1 h2 hm h4) fuel _ _
  · intro fuel l x h hx
    rw [listSubnetAddresses_singleton] at h
    exact inner_head _ fuel _ l x h hx

/-- The blocks `10.0.0.2/30` and `10.0.0.0/30` enumerate the same four addresses,
starting at `10.0.0.0`. -/
theorem listSubnetAddresses_network_only_witness :
    listSubnetAddresses 5 [{ IP := [10, 0, 0, 2], Mask := [255, 255, 255, 252] }] =
        listSubnetAddresses 5 [{ IP := [10, 0, 0, 0], Mask := [255, 255, 255, 252] }] ∧
      listSubnetAddresses 5 [{ IP := [10, 0, 0, 2], Mask := [255, 255, 255, 252] }] =
        some [[10, 0, 0, 0], [10, 0, 0, 1], [10, 0, 0, 2], [10, 0, 0, 3]] :=
  ⟨(listSubnetAddresses_network_only [10, 0, 0, 2] [10, 0, 0, 0] [255, 255, 255, 252]
      (by decide) (by decide) (by decide) (by decide)).1 5, by decide⟩

/-! ## Overflow of the increment and termination -/

theorem inner_last (nt : IPNet) : ∀ (fuel : Nat) (ip : IP) (acc l : List IP),
    listSubnetAddresses.inner nt fuel ip acc = some l →
      (l = acc ∧ nt.Contains ip = false) ∨
        ∃ x, l.getLast? = some x ∧ nt.Contains (incIP x) = false := by
  intro fuel
  induction fuel with
  | zero => intro ip acc l h; simp [listSubnetAddresses.inner] at h
  | succ f ih =>
    intro ip acc l h
    rw [listSubnetAddresses.inner] at h
    by_cases hc : nt.Contains ip = true
    · simp only [hc, if_true] at h
      rcases ih _ _ _ h with ⟨hl, hout⟩ | hx
      · right
        exact ⟨ip, by simp [hl], hout⟩
      · exact Or.inr hx
    · simp only [hc] at h
      left
      simp only [Bool.false_eq_true, if_false, Option.some.injEq] at h
      exact ⟨h.symm, by simpa using hc⟩

theorem inner_run_until (nt : IPNet) (n s T : Nat) (hT : T < 256 ^ n)
    (hin : ∀ ip : IP, ip.length = n → isBytes ip → s ≤ beValue ip → beValue ip < T →
      nt.Contains ip = true)
    (hout : ∀ ip : IP, ip.length = n → isBytes ip → beValue ip = T →
      nt.Contains ip = false) :
    ∀ (k : Nat) (ip : IP) (acc : List IP), ip.length = n → isBytes ip → s ≤ beValue ip →
      beValue ip + k = T → ∀ fuel, k + 1 ≤ fuel →
        listSubnetAddresses.inner nt fuel ip acc = some (acc ++ List.iterate incIP ip k) := by
  intro k
  induction k with
  | zero =>
    intro ip acc hl hb _ hv fuel hf
    obtain ⟨f, rfl⟩ : ∃ f, fuel = f + 1 := ⟨fuel - 1, by omega⟩
    rw [listSubnetAddresses.inner, hout ip hl hb (by omega)]
    simp [List.iterate]
  | succ k ih =>
    intro ip acc hl hb hs hv fuel hf
    obtain ⟨f, rfl⟩ : ∃ f, fuel = f + 1 := ⟨fuel - 1, by omega⟩
    obtain ⟨hl', hb', hv'⟩ := incIP_spec ip hb
    rw [hl] at hl' hv'
    have hv2 : beValue (incIP ip) = beValue ip + 1 := by
      rw [hv']; apply Nat.mod_eq_of_lt; omega
    rw [listSubnetAddresses.inner, hin ip hl hb hs (by omega)]
    simp only [if_true]
    rw [ih (incIP ip) (acc ++ [ip]) hl' hb' (by omega) (by omega) f (by omega)]
    simp [List.iterate]

theorem beValue_replicate_ff (n : Nat) : beValue (List.replicate n 0xff) + 1 = 256 ^ n := by
  induction n with
  | zero => rfl
  | succ n ih =>
    simp only [List.replicate_succ, beValue, List.length_replicate, pow_succ]
    omega

theorem isBytes_allOnes (n : Nat) : isBytes (allOnes n) := by
  intro b hb
  rw [allOnes, List.mem_replicate] at hb
  omega

theorem avoids_of_numeric (IP0 : IP) (p : Nat) (hb : isBytes IP0)
    (h : IP0.length = 16 → p < 96 →
      beValue IP0 / 2 ^ (128 - p) ≠ beValue IPv4zero / 2 ^ (128 - p)) :
    avoidsV4Mapped IP0 p := by
  intro h0 hp
  have hc : CIDRMask p 128 = CIDRMask.fill 16 p := CIDRMask_eq_fill p 16 (Or.inr rfl) (by omega)
  have hz : IPv4zero.length = 16 := by decide
  rw [hc, Mask_eq_zipWith _ _ (by simp [h0, CIDRMask_fill_length]),
    Mask_eq_zipWith _ _ (by simp [hz, CIDRMask_fill_length])]
  intro e
  exact h h0 hp ((zipWith_mask_eq_iff 16 p IP0 IPv4zero h0 hz hb (by decide) (by omega)).1 e)

theorem cidrBlock_getLast (IP0 : IP) (p : Nat) (hl : IP0.length = 4 ∨ IP0.length = 16)
    (hb : isBytes IP0) (hp1 : 1 ≤ p) (hp : p ≤ 8 * IP0.length) :
    ∃ x, (List.iterate incIP (IP.Mask IP0 (cidrBlock IP0 p).Mask)
        (2 ^ (8 * IP0.length - p))).getLast? = some x ∧ x.length = IP0.length ∧ isBytes x ∧
      beValue x = beValue IP0 / 2 ^ (8 * IP0.length - p) * 2 ^ (8 * IP0.length - p) +
        (2 ^ (8 * IP0.length - p) - 1) := by
  obtain ⟨hvals, hmem⟩ := cidrBlock_values IP0 p hl hb hp1 hp
  obtain ⟨d, hd⟩ : ∃ d, 2 ^ (8 * IP0.length - p) = d + 1 :=
    ⟨2 ^ (8 * IP0.length - p) - 1, by
      have := Nat.one_le_two_pow (n := 8 * IP0.length - p); omega⟩
  have hlast := congrArg List.getLast? hvals
  rw [List.getLast?_map] at hlast
  rw [hd] at hlast hmem ⊢
  rw [List.getLast?_range'] at hlast
  simp only [Nat.add_one_ne_zero, if_false] at hlast
  cases hg : (List.iterate incIP (IP.Mask IP0 (cidrBlock IP0 p).Mask) (d + 1)).getLast? with
  | none => rw [hg] at hlast; simp at hlast
  | some x =>
    rw [hg] at hlast
    simp only [Option.map_some', Option.some.injEq] at hlast
    obtain ⟨hxl, hxb⟩ := hmem x (List.mem_of_getLast?_eq_some hg)
    refine ⟨x, rfl, hxl, hxb, ?_⟩
    rw [hlast]; simp

theorem allOnes_in_block (ip : IP) (p : Nat) (hl : ip.length = 4 ∨ ip.length = 16)
    (hb : isBytes ip) (hp : p ≤ 8 * ip.length)
    (hc : (cidrBlock ip p).Contains (allOnes ip.length) = true) :
    beValue (allOnes ip.length) / 2 ^ (8 * ip.length - p) =
      beValue ip / 2 ^ (8 * ip.length - p) := by
  unfold cidrBlock at hc
  rw [CIDRMask_eq_fill p _ hl hp] at hc
  rcases hl with h0 | h0
  · rw [h0] at hc hp ⊢
    rw [Contains_block4 ip p (allOnes 4) h0 hb (by omega) (by decide) (isBytes_allOnes 4)] at hc
    exact of_decide_eq_true hc
  · rw [h0] at hc hp ⊢
    have hn : ip.take 12 ≠ v4InV6Prefix := by
      intro hm
      have hsome : (IP.To4 ({ IP := ip, Mask := CIDRMask.fill 16 p } : IPNet).IP).isSome = true := by
        show (IP.To4 ip).isSome = true
        rw [To4_of_length16 ip h0, if_pos hm]; rfl
      have := Contains_v4 _ (allOnes 16) hsome hc (by decide)
      revert this
      decide
    rw [Contains_block16 ip p (allOnes 16) h0 hb (by omega) (by decide) (isBytes_allOnes 16) hn
      (by intro hm; exact absurd hm (by decide))] at hc
    exact of_decide_eq_true hc

theorem allOnes_avoids (ip : IP) (p : Nat) (hb : isBytes ip) (hp1 : 1 ≤ p)
    (hv : ip.length = 16 →
      beValue (allOnes 16) / 2 ^ (128 - p) = beValue ip / 2 ^ (128 - p)) :
    avoidsV4Mapped ip p := by
  apply avoids_of_numeric ip p hb
  intro h0 _ e
  have e2 := (hv h0).trans e
  have e3 := div_pow_mono _ _ (128 - p) 127 (by omega) e2
  revert e3
  decide

theorem allOnes_split (n p : Nat) (hp : p ≤ 8 * n) :
    beValue (allOnes n) / 2 ^ (8 * n - p) * 2 ^ (8 * n - p) + (2 ^ (8 * n - p) - 1) =
      beValue (allOnes n) := by
  have hA := beValue_replicate_ff n
  have e : 256 ^ n = 2 ^ p * 2 ^ (8 * n - p) := by
    rw [pow256, ← pow_add]; congr 1; omega
  have hD : 0 < 2 ^ (8 * n - p) := by positivity
  have hP : 0 < 2 ^ p := by positivity
  obtain ⟨P, hPe⟩ : ∃ P, 2 ^ p = P + 1 := ⟨2 ^ p - 1, by omega⟩
  have hval : beValue (allOnes n) = P * 2 ^ (8 * n - p) + (2 ^ (8 * n - p) - 1) := by
    have : 256 ^ n = P * 2 ^ (8 * n - p) + 2 ^ (8 * n - p) := by rw [e, hPe]; ring
    unfold allOnes
    omega
  have hq : beValue (allOnes n) / 2 ^ (8 * n - p) = P := by
    rw [hval]
    apply Nat.div_eq_of_lt_le
    · omega
    · have : (P + 1) * 2 ^ (8 * n - p) = P * 2 ^ (8 * n - p) + 2 ^ (8 * n - p) := by ring
      omega
  rw [hq, ← hval]

theorem allOnes_quotient_pos (n p : Nat) (hp1 : 1 ≤ p) (hp : p ≤ 8 * n) :
    0 < beValue (allOnes n) / 2 ^ (8 * n - p) := by
  have hA := beValue_replicate_ff n
  have e : 256 ^ n = 2 ^ p * 2 ^ (8 * n - p) := by
    rw [pow256, ← pow_add]; congr 1; omega
  have hD : 0 < 2 ^ (8 * n - p) := by positivity
  have h2 : 2 ≤ 2 ^ p := by
    calc 2 = 2 ^ 1 := by norm_num
      _ ≤ 2 ^ p := Nat.pow_le_pow_right (by norm_num) hp1
  apply Nat.div_pos _ hD
  have : 2 * 2 ^ (8 * n - p) ≤ 2 ^ p * 2 ^ (8 * n - p) := Nat.mul_le_mul_right _ h2
  unfold allOnes
  omega

/-- C12, as stated, fails on the code: the block `0.0.0.0/0` contains the all-ones
address, yet its enumeration never terminates (the increment of `255.255.255.255` wraps
to `0.0.0.0`, which the block contains); the block `::/0` contains the all-ones address,
yet no enumeration of it ends with that address (its increment `::` is contained). -/
theorem listSubnetAddresses_whole_space_overflow :
    (cidrBlock [0, 0, 0, 0] 0).Contains (allOnes 4) = true ∧
      (∀ fuel : Nat, listSubnetAddresses fuel [cidrBlock [0, 0, 0, 0] 0] = none) ∧
      (cidrBlock IPv6zero 0).Contains (allOnes 16) = true ∧
      (∀ (fuel : Nat) (l : List IP), listSubnetAddresses fuel [cidrBlock IPv6zero 0] = some l →
        l.getLast? ≠ some (allOnes 16)) := by
  refine ⟨by decide, ?_, by decide, ?_⟩
  · intro fuel
    rw [listSubnetAddresses_singleton]
    have : IP.Mask (cidrBlock [0, 0, 0, 0] 0).IP (cidrBlock [0, 0, 0, 0] 0).Mask =
        [0, 0, 0, 0] := by decide
    rw [this, inner_zero_ones fuel [0, 0, 0, 0] [] rfl (by decide)]
  · intro fuel l h hlast
    rw [listSubnetAddresses_singleton] at h
    rcases inner_last _ _ _ _ _ h with ⟨hl, _⟩ | ⟨x, hx, hout⟩
    · rw [hl] at hlast; simp at hlast
    · rw [hlast] at hx
      simp only [Option.some.injEq] at hx
      rw [← hx] at hout
      revert hout
      decide

/-- C12 (amended): for every block of prefix length at least 1 that contains the
all-ones address of its width, `listSubnetAddresses` terminates and the all-ones address
is the last value it emits: its increment overflows the topmost byte and wraps to the
all-zeros address, which lies outside the block. -/
theorem listSubnetAddresses_allOnes_last (ip : IP) (ones : Nat)
    (hl : ip.length = 4 ∨ ip.length = 16) (hb : isBytes ip) (h1 : 1 ≤ ones)
    (h2 : ones ≤ 8 * ip.length)
    (hc : (cidrBlock ip ones).Contains (allOnes ip.length) = true) :
    ∃ l : List IP,
      (∀ fuel, 2 ^ (8 * ip.length - ones) + 1 ≤ fuel →
        listSubnetAddresses fuel [cidrBlock ip ones] = some l) ∧
      l.getLast? = some (allOnes ip.length) ∧
      incIP (allOnes ip.length) = List.replicate ip.length 0 ∧
      (cidrBlock ip ones).Contains (List.replicate ip.length 0) = false := by
  have hv := allOnes_in_block ip ones hl hb h2 hc
  have hav : avoidsV4Mapped ip ones := by
    apply allOnes_avoids ip ones hb h1
    intro h0
    have := hv
    rw [h0] at this
    exact this
  obtain ⟨x, hx, hxl, hxb, hxv⟩ := cidrBlock_getLast ip ones hl hb h1 h2
  have hxa : x = allOnes ip.length := by
    apply beValue_inj _ _ (by simp [hxl, allOnes]) hxb (isBytes_allOnes _)
    rw [hxv, ← hv, allOnes_split _ _ h2]
  refine ⟨_, fun fuel hf => cidrBlock_list ip ones hl hb h1 h2 hav fuel hf, ?_, ?_, ?_⟩
  · rw [hx, hxa]
  · rcases hl with h0 | h0 <;> rw [h0] <;> decide
  · have hz : beValue (List.replicate ip.length 0) = 0 := by
      rcases hl with h0 | h0 <;> rw [h0] <;> decide
    have hzb : isBytes (List.replicate ip.length 0) := by
      intro b hb'
      rw [List.mem_replicate] at hb'
      omega
    rw [Contains_cidrBlock ip ones _ hl hb h2 hav (by simp) hzb, hz, ← hv]
    have := allOnes_quotient_pos ip.length ones h1 h2
    simp only [Nat.zero_div, decide_eq_false_iff_not]
    omega

/-- The block `255.255.255.252/30` ends at `255.255.255.255`. -/
theorem listSubnetAddresses_allOnes_last_witness :
    ∃ l : List IP,
      (∀ fuel, 2 ^ (8 * [255, 255, 255, 252].length - 30) + 1 ≤ fuel →
        listSubnetAddresses fuel [cidrBlock [255, 255, 255, 252] 30] = some l) ∧
      l.getLast? = some (allOnes [255, 255, 255, 252].length) ∧
      incIP (allOnes [255, 255, 255, 252].length) =
        List.replicate [255, 255, 255, 252].length 0 ∧
      (cidrBlock [255, 255, 255, 252] 30).Contains
        (List.replicate [255, 255, 255, 252].length 0) = false :=
  listSubnetAddresses_allOnes_last [255, 255, 255, 252] 30 (by decide) (by decide) (by decide)
    (by decide) (by decide)

theorem nodup_of_values (l : List IP) (s k : Nat) (h : l.map beValue = List.range' s k) :
    l.Nodup := by
  apply List.Nodup.of_map beValue
  rw [h]
  exact List.nodup_range' s k

theorem listSubnetAddresses_contained (fuel : Nat) (nt : IPNet) (l : List IP)
    (h : listSubnetAddresses fuel [nt] = some l) : ∀ x ∈ l, nt.Contains x = true := by
  rw [listSubnetAddresses_singleton] at h
  obtain ⟨r, hr, hall⟩ := inner_sound nt fuel _ [] l h
  simp only [List.nil_append] at hr
  subst hr
  exact fun x hx => (hall x hx).1

theorem even_shift_ne (N h : Nat) (hh : 33 ≤ h) : N * 2 ^ h / 2 ^ 32 ≠ 0xffff := by
  have e : 2 ^ h = 2 ^ (h - 33) * 2 * 2 ^ 32 := by
    rw [mul_assoc, ← pow_succ', ← pow_add]; congr 1; omega
  rw [e, ← mul_assoc, ← mul_assoc, Nat.mul_div_cancel _ (by positivity)]
  omega

/-- A mapped block address with a prefix shorter than 96 bits: the masked address is
not IPv4-mapped, `Contains` rejects it and nothing is enumerated. -/
theorem mapped_short_prefix_empty (ip : IP) (p : Nat) (h0 : ip.length = 16) (hb : isBytes ip)
    (hp : p < 96) (hm : ip.take 12 = v4InV6Prefix) (fuel : Nat) :
    listSubnetAddresses (fuel + 1) [cidrBlock ip p] = some [] := by
  obtain ⟨hml, hmb, hmv⟩ := Mask_cidrBlock ip p (Or.inr h0) hb (by omega)
  have hIP : (cidrBlock ip p).IP = ip := rfl
  have hnm : (IP.Mask ip (cidrBlock ip p).Mask).take 12 ≠ v4InV6Prefix := by
    intro hmm
    have := (mapped_iff _ (hml.trans h0) hmb).1 hmm
    rw [hmv, h0] at this
    exact even_shift_ne _ _ (by omega) this
  have hnone : IP.To4 (IP.Mask ip (cidrBlock ip p).Mask) = none := by
    rw [To4_of_length16 _ (hml.trans h0), if_neg hnm]
  have hc : (cidrBlock ip p).Contains (IP.Mask ip (cidrBlock ip p).Mask) = false := by
    by_contra hcon
    have htrue : (cidrBlock ip p).Contains (IP.Mask ip (cidrBlock ip p).Mask) = true := by
      simpa using hcon
    have hsome : (IP.To4 (cidrBlock ip p).IP).isSome = true := by
      rw [hIP, To4_of_length16 ip h0, if_pos hm]; rfl
    have hne : IP.Mask ip (cidrBlock ip p).Mask ≠ [] := by
      intro e
      rw [e] at hml
      simp [h0] at hml
    have := Contains_v4 _ _ hsome htrue hne
    rw [hnone] at this
    simp at this
  rw [listSubnetAddresses_singleton, hIP, listSubnetAddresses.inner, hc]
  simp

/-- A block that is not IPv4-mapped itself but covers the IPv4-mapped range: the
enumeration runs from the network address up to, and not including, `::ffff:0.0.0.0`. -/
theorem overlap_run (ip : IP) (p : Nat) (h0 : ip.length = 16) (hb : isBytes ip) (hp : p < 96)
    (hn : ip.take 12 ≠ v4InV6Prefix)
    (heq : beValue ip / 2 ^ (128 - p) = beValue IPv4zero / 2 ^ (128 - p)) :
    ∃ (l : List IP) (s k : Nat),
      (∀ fuel, k + 1 ≤ fuel → listSubnetAddresses fuel [cidrBlock ip p] = some l) ∧
        l.map beValue = List.range' s k := by
  have hT : beValue IPv4zero = 281470681743360 := by decide
  have hB : cidrBlock ip p = { IP := ip, Mask := CIDRMask.fill 16 p } := by
    unfold cidrBlock
    rw [h0, CIDRMask_eq_fill p 16 (Or.inr rfl) (by omega)]
  obtain ⟨hml, hmb, hmv⟩ := Mask_cidrBlock ip p (Or.inr h0) hb (by omega)
  rw [h0] at hml hmv
  have h128 : 8 * 16 - p = 128 - p := by omega
  rw [h128, heq, hT] at hmv
  rw [hT] at heq
  have hD : 0 < 2 ^ (128 - p) := by positivity
  have hsle : 281470681743360 / 2 ^ (128 - p) * 2 ^ (128 - p) ≤ 281470681743360 :=
    Nat.div_mul_le_self _ _
  have hlt : 281470681743360 < (281470681743360 / 2 ^ (128 - p) + 1) * 2 ^ (128 - p) := by
    have e := Nat.mod_add_div' 281470681743360 (2 ^ (128 - p))
    have hm := Nat.mod_lt 281470681743360 hD
    rw [add_mul, one_mul]
    omega
  have hnone : IP.To4 (cidrBlock ip p).IP = none := by
    show IP.To4 ip = none
    rw [To4_of_length16 ip h0, if_neg hn]
  have hin : ∀ x : IP, x.length = 16 → isBytes x →
      281470681743360 / 2 ^ (128 - p) * 2 ^ (128 - p) ≤ beValue x →
      beValue x < 281470681743360 → (cidrBlock ip p).Contains x = true := by
    intro x hxl hxb hlo hhi
    have hxn : x.take 12 ≠ v4InV6Prefix := by
      intro hxm
      have := (mapped_iff x hxl hxb).1 hxm
      have hle := Nat.div_mul_le_self (beValue x) (2 ^ 32)
      rw [this] at hle
      norm_num at hle
      omega
    rw [hB, Contains_block16 ip p x h0 hb (by omega) hxl hxb hn
      (fun hxm => absurd hxm hxn), heq]
    simp only [decide_eq_true_eq]
    apply Nat.div_eq_of_lt_le
    · exact hlo
    · omega
  have hout : ∀ x : IP, x.length = 16 → isBytes x → beValue x = 281470681743360 →
      (cidrBlock ip p).Contains x = false := by
    intro x hxl hxb hxv
    have hxm : x.take 12 = v4InV6Prefix := by
      apply (mapped_iff x hxl hxb).2
      rw [hxv]
      norm_num
    by_contra hcon
    have htrue : (cidrBlock ip p).Contains x = true := by simpa using hcon
    have hxne : x ≠ [] := by
      intro e; rw [e] at hxl; simp at hxl
    have := (Contains_v6 _ x hnone htrue hxne).1
    rw [To4_of_length16 x hxl, if_pos hxm] at this
    simp at this
  have hrun := inner_run_until (cidrBlock ip p) 16
    (281470681743360 / 2 ^ (128 - p) * 2 ^ (128 - p)) 281470681743360 (by norm_num) hin hout
    (281470681743360 - 281470681743360 / 2 ^ (128 - p) * 2 ^ (128 - p))
    (IP.Mask ip (cidrBlock ip p).Mask) [] hml hmb (by rw [hmv]) (by rw [hmv]; omega)
  refine ⟨List.iterate incIP (IP.Mask ip (cidrBlock ip p).Mask)
      (281470681743360 - 281470681743360 / 2 ^ (128 - p) * 2 ^ (128 - p)),
    281470681743360 / 2 ^ (128 - p) * 2 ^ (128 - p),
    281470681743360 - 281470681743360 / 2 ^ (128 - p) * 2 ^ (128 - p), ?_, ?_⟩
  · intro fuel hf
    rw [listSubnetAddresses_singleton]
    have := hrun fuel hf
    simpa using this
  · have := (iterate_incIP_values 16
      (281470681743360 - 281470681743360 / 2 ^ (128 - p) * 2 ^ (128 - p))
      (IP.Mask ip (cidrBlock ip p).Mask) hml hmb (by rw [hmv]; norm_num; omega)).1
    rw [hmv] at this
    exact this

/-- C17: for every block of a 4- or 16-byte address whose mask is the contiguous mask of
a prefix length between 1 and the address width, the loop of `listSubnetAddresses`
terminates (some amount of fuel, and every larger one, gives the list), every address it
emits is contained in the block, and no address is emitted twice. -/
theorem listSubnetAddresses_terminates (ip : IP) (ones : Nat)
    (hl : ip.length = 4 ∨ ip.length = 16) (hb : isBytes ip) (h1 : 1 ≤ ones)
    (h2 : ones ≤ 8 * ip.length) :
    ∃ l : List IP,
      (∃ fuel0, ∀ fuel, fuel0 ≤ fuel → listSubnetAddresses fuel [cidrBlock ip ones] = some l) ∧
      (∀ x ∈ l, (cidrBlock ip ones).Contains x = true) ∧
      l.Nodup := by
  by_cases hcase : ip.length = 16 ∧ ones < 96 ∧
      beValue ip / 2 ^ (128 - ones) = beValue IPv4zero / 2 ^ (128 - ones)
  · obtain ⟨h0, hp, heq⟩ := hcase
    by_cases hm : ip.take 12 = v4InV6Prefix
    · refine ⟨[], ⟨1, ?_⟩, by simp, List.nodup_nil⟩
      intro fuel hf
      obtain ⟨f, rfl⟩ : ∃ f, fuel = f + 1 := ⟨fuel - 1, by omega⟩
      exact mapped_short_prefix_empty ip ones h0 hb hp hm f
    · obtain ⟨l, s, k, hrun, hvals⟩ := overlap_run ip ones h0 hb hp hm heq
      exact ⟨l, ⟨k + 1, hrun⟩,
        listSubnetAddresses_contained (k + 1) _ l (hrun (k + 1) (le_refl _)),
        nodup_of_values l s k hvals⟩
  · have hav : avoidsV4Mapped ip ones :=
      avoids_of_numeric ip ones hb (fun h0 hp e => hcase ⟨h0, hp, e⟩)
    have hrun := cidrBlock_list ip ones hl hb h1 h2 hav
    obtain ⟨hvals, _⟩ := cidrBlock_values ip ones hl hb h1 h2
    exact ⟨_, ⟨_, hrun⟩, listSubnetAddresses_contained _ _ _ (hrun _ (le_refl _)),
      nodup_of_values _ _ _ hvals⟩

/-- The block `fd00::/126`. -/
theorem listSubnetAddresses_terminates_witness :
    ∃ l : List IP,
      (∃ fuel0, ∀ fuel, fuel0 ≤ fuel →
        listSubnetAddresses fuel
          [cidrBlock [0xfd, 0, 0, 0, 0, 0, 0, 0, 0, 0, 0, 0, 0, 0, 0, 0] 126] = some l) ∧
      (∀ x ∈ l,
        (cidrBlock [0xfd, 0, 0, 0, 0, 0, 0, 0, 0, 0, 0, 0, 0, 0, 0, 0] 126).Contains x = true) ∧
      l.Nodup :=
  listSubnetAddresses_terminates [0xfd, 0, 0, 0, 0, 0, 0, 0, 0, 0, 0, 0, 0, 0, 0, 0] 126
    (by decide) (by decide) (by decide) (by decide)

end NodeAddressing
